/-
Verification of the SM2/SM3 cryptographic core of the repository.

Shallow embedding of `src/core/crypto/sm3_hash.py`, `src/core/crypto/sm2_key_generator.py`
and `src/core/crypto/sm2_crypto.py`.  Byte strings are `List ℕ` (each entry a byte value),
Python integers are `ℕ` / `ℤ`, Python `%` on integers with a positive modulus is Lean's
`%` on `ℤ` (`Int.emod`, both return a representative in `[0, m)`), and Python functions
that can raise become `Except`-valued functions.
-/
import Mathlib

set_option maxRecDepth 10000
set_option maxHeartbeats 3000000

namespace SM3

/-- 0xFFFFFFFF, the 32-bit mask used throughout `sm3_hash.py`. -/
def MASK32 : ℕ := 0xFFFFFFFF

/-- `SM3Hash._rotl`: 32-bit rotate left, `((value << amount) | (value >> (32 - amount))) & 0xFFFFFFFF`. -/
def rotl (value amount : ℕ) : ℕ :=
  ((value <<< amount) ||| (value >>> (32 - amount))) &&& MASK32

/-- `SM3Hash._ff`: boolean function FF. -/
def ffF (x y z j : ℕ) : ℕ :=
  if j < 16 then x ^^^ y ^^^ z else (x &&& y) ||| (x &&& z) ||| (y &&& z)

/-- `SM3Hash._gg`: boolean function GG.  Python `~x` is the two's-complement bitwise
complement; conjoined with a value `z < 2^32` it agrees with `(x XOR 0xFFFFFFFF) & z`
for the 32-bit-ranged `x` reaching it. -/
def ggF (x y z j : ℕ) : ℕ :=
  if j < 16 then x ^^^ y ^^^ z else (x &&& y) ||| ((x ^^^ MASK32) &&& z)

/-- `SM3Hash._p0`. -/
def p0F (x : ℕ) : ℕ := x ^^^ rotl x 9 ^^^ rotl x 17

/-- `SM3Hash._p1`. -/
def p1F (x : ℕ) : ℕ := x ^^^ rotl x 15 ^^^ rotl x 23

/-- `SM3Hash._t`: the round constant. -/
def tF (j : ℕ) : ℕ := if j < 16 then 0x79CC4519 else 0x7A879D8A

/-- Big-endian bytes of `n`, `len` bytes (Python `int.to_bytes(len, 'big')`,
truncating instead of raising when `n` does not fit; all call sites stay in range). -/
def natToBytesBE : ℕ → ℕ → List ℕ
  | 0, _ => []
  | len + 1, n => natToBytesBE len (n / 256) ++ [n % 256]

/-- Big-endian interpretation of a byte list (Python `int.from_bytes(_, 'big')`). -/
def bytesToNat (l : List ℕ) : ℕ := l.foldl (fun acc b => acc * 256 + b) 0

/-- `struct.unpack('>16I', block)`: split bytes into big-endian 32-bit words. -/
def bytesToWordsBE : List ℕ → List ℕ
  | b0 :: b1 :: b2 :: b3 :: rest =>
      (((b0 * 256 + b1) * 256 + b2) * 256 + b3) :: bytesToWordsBE rest
  | _ => []

/-- `struct.pack('>8I', ...)` / `'>Q'`: words back to big-endian bytes. -/
def wordsToBytesBE (width : ℕ) : List ℕ → List ℕ
  | [] => []
  | w :: ws => natToBytesBE width w ++ wordsToBytesBE width ws

/-- The loop `for j in range(16, 68)` of `SM3Hash._message_extension`:
appending `count` further expanded words to `w`. -/
def extW : ℕ → List ℕ → List ℕ
  | 0, w => w
  | count + 1, w =>
      let j := w.length
      let temp := p1F ((w.getD (j - 16) 0) ^^^ (w.getD (j - 9) 0) ^^^ rotl (w.getD (j - 3) 0) 15)
      let wj := (temp ^^^ rotl (w.getD (j - 13) 0) 7 ^^^ (w.getD (j - 6) 0)) &&& MASK32
      extW count (w ++ [wj])

/-- `SM3Hash._message_extension`: returns `(w, w')`. -/
def messageExtension (block : List ℕ) : List ℕ × List ℕ :=
  let w := extW 52 (bytesToWordsBE block)
  let wPrime := (List.range 64).map (fun j => w.getD j 0 ^^^ w.getD (j + 4) 0)
  (w, wPrime)

/-- One round `j` of the 64-round loop in `SM3Hash._compress`: the eight working
variables before the round map to the eight after it (assignments taken in source
order, then the final `& 0xFFFFFFFF` of line 129). -/
def round (w wPrime : List ℕ) (acc : ℕ × ℕ × ℕ × ℕ × ℕ × ℕ × ℕ × ℕ) (j : ℕ) :
    ℕ × ℕ × ℕ × ℕ × ℕ × ℕ × ℕ × ℕ :=
  let (A, B, C, D, E, F, G, H) := acc
  let SS1 := rotl ((rotl A 12 + E + rotl (tF j) (j % 32)) &&& MASK32) 7 &&& MASK32
  let SS2 := SS1 ^^^ rotl A 12
  let TT1 := (ffF A B C j + D + SS2 + wPrime.getD j 0) &&& MASK32
  let TT2 := (ggF E F G j + H + SS1 + w.getD j 0) &&& MASK32
  (TT1 &&& MASK32, A &&& MASK32, rotl B 9 &&& MASK32, C &&& MASK32,
   p0F TT2 &&& MASK32, E &&& MASK32, rotl F 19 &&& MASK32, G &&& MASK32)

/-- `SM3Hash._compress` as a pure function from the 8-word state and a 64-byte block
to the new 8-word state. -/
def compress (state : List ℕ) (block : List ℕ) : List ℕ :=
  let (w, wPrime) := messageExtension block
  let init8 : ℕ × ℕ × ℕ × ℕ × ℕ × ℕ × ℕ × ℕ :=
    (state.getD 0 0, state.getD 1 0, state.getD 2 0, state.getD 3 0,
     state.getD 4 0, state.getD 5 0, state.getD 6 0, state.getD 7 0)
  let (A, B, C, D, E, F, G, H) := (List.range 64).foldl (round w wPrime) init8
  List.zipWith (fun s v => (s ^^^ v) &&& MASK32) state [A, B, C, D, E, F, G, H]

/-- The initial value `SM3Hash.IV`. -/
def IV : List ℕ :=
  [0x7380166F, 0x4914B2B9, 0x172442D7, 0xDA8A0600,
   0xA96F30BC, 0x163138AA, 0xE38DEE4D, 0xB0FB0E4E]

/-- The mutable triple of `SM3Hash`: `self.state`, `self.buffer`, `self.counter`. -/
structure S where
  state : List ℕ
  buffer : List ℕ
  counter : ℕ
  deriving DecidableEq, Repr

/-- `SM3Hash.reset` / the state right after `__init__`. -/
def resetS : S := ⟨IV, [], 0⟩

/-- The `while len(buffer) >= 64` loop shared by `update` and `digest`:
compress full 64-byte chunks, return the final state and the remainder.
`fuel` bounds the number of iterations; any `fuel ≥ buffer length` is exact. -/
def compressChunks : ℕ → List ℕ → List ℕ → List ℕ × List ℕ
  | 0, st, buf => (st, buf)
  | fuel + 1, st, buf =>
      if 64 ≤ buf.length then
        compressChunks fuel (compress st (buf.take 64)) (buf.drop 64)
      else (st, buf)

/-- `SM3Hash.update`. -/
def update (s : S) (data : List ℕ) : S :=
  let buf := s.buffer ++ data
  let (st', rem) := compressChunks buf.length s.state buf
  ⟨st', rem, s.counter + data.length⟩

/-- Number of zero bytes appended by the `while len(temp_buffer) % 64 != 56` loop,
given the length after the `0x80` byte. -/
def padZeros (l : ℕ) : ℕ := (56 + 64 - l % 64) % 64

/-- `SM3Hash.digest`: returns the digest bytes and the object state left behind
(the source restores `state` and `counter` but re-derives `buffer` from the
already-consumed `temp_buffer`, line 181). -/
def digest (s : S) : List ℕ × S :=
  let msgBitLength := s.counter * 8
  let padded := s.buffer ++ [0x80]
    ++ List.replicate (padZeros (s.buffer.length + 1)) 0
    ++ natToBytesBE 8 msgBitLength
  let res := compressChunks padded.length s.state padded
  let result := wordsToBytesBE 4 res.1
  let restoredBuffer := if s.counter % 64 ≠ 0 then res.2.take (s.counter % 64) else []
  (result, ⟨s.state, restoredBuffer, s.counter⟩)

/-- `SM3Hash.hash` / the module-level `sm3_hash`: one-shot hashing. -/
def sm3 (data : List ℕ) : List ℕ := (digest (update resetS data)).1

/-- An interaction with one `SM3Hash` object: a call to `update` or to `digest`. -/
inductive Op where
  | upd (data : List ℕ)
  | dig
  deriving DecidableEq, Repr

/-- Effect of one call on the hasher's mutable state (`digest`'s return value dropped). -/
def applyOp (s : S) : Op → S
  | .upd data => update s data
  | .dig => (digest s).2

/-- The hasher state after a sequence of calls on a freshly constructed object. -/
def runOps (ops : List Op) : S := ops.foldl applyOp resetS

/-- Total number of bytes passed to `update` in a call sequence. -/
def totalBytes (ops : List Op) : ℕ :=
  (ops.map (fun o => match o with | .upd data => data.length | .dig => 0)).sum

end SM3

namespace SM3

theorem mask_and_lt {s v : ℕ} : (s ^^^ v) &&& MASK32 < 2 ^ 32 :=
  lt_of_le_of_lt Nat.and_le_right (by norm_num [MASK32])

theorem compress_state_lt (st blk : List ℕ) : ∀ w ∈ compress st blk, w < 2 ^ 32 := by
  have h : ∀ (l1 l2 : List ℕ),
      ∀ w ∈ List.zipWith (fun s v => (s ^^^ v) &&& MASK32) l1 l2, w < 2 ^ 32 := by
    intro l1
    induction l1 with
    | nil => intro l2 w hw; simp at hw
    | cons x xs ih =>
        intro l2 w hw
        cases l2 with
        | nil => simp at hw
        | cons y ys =>
            simp only [List.zipWith, List.mem_cons] at hw
            rcases hw with rfl | hw
            · exact mask_and_lt
            · exact ih ys w hw
  unfold compress
  exact h _ _

theorem compressChunks_state_lt (fuel : ℕ) (st buf : List ℕ)
    (hst : ∀ w ∈ st, w < 2 ^ 32) :
    ∀ w ∈ (compressChunks fuel st buf).1, w < 2 ^ 32 := by
  induction fuel generalizing st buf with
  | zero => exact hst
  | succ n ih =>
      unfold compressChunks
      by_cases h : 64 ≤ buf.length
      · simpa [h] using ih (compress st (buf.take 64)) (buf.drop 64)
          (compress_state_lt st (buf.take 64))
      · simpa [h] using hst

theorem compressChunks_rem_lt (fuel : ℕ) (st buf : List ℕ)
    (hfuel : buf.length ≤ fuel) :
    (compressChunks fuel st buf).2.length < 64 := by
  induction fuel generalizing st buf with
  | zero =>
      have : buf.length = 0 := Nat.le_zero.mp hfuel
      simpa [compressChunks] using this ▸ (by norm_num : (0 : ℕ) < 64)
  | succ n ih =>
      unfold compressChunks
      by_cases h : 64 ≤ buf.length
      · have : (buf.drop 64).length ≤ n := by
          simp only [List.length_drop]
          omega
        simpa [h] using ih (compress st (buf.take 64)) (buf.drop 64) this
      · simpa [h] using by omega

theorem update_wf (s : S) (data : List ℕ)
    (hst : ∀ w ∈ s.state, w < 2 ^ 32) :
    (∀ w ∈ (update s data).state, w < 2 ^ 32) ∧
      (update s data).buffer.length < 64 ∧
      (update s data).counter = s.counter + data.length := by
  unfold update
  refine ⟨?_, ?_, rfl⟩
  · exact compressChunks_state_lt _ _ _ hst
  · exact compressChunks_rem_lt _ _ _ le_rfl

theorem digest_wf (s : S)
    (hst : ∀ w ∈ s.state, w < 2 ^ 32) :
    (∀ w ∈ (digest s).2.state, w < 2 ^ 32) ∧
      (digest s).2.buffer.length < 64 ∧
      (digest s).2.counter = s.counter := by
  dsimp only [digest]
  refine ⟨hst, ?_, rfl⟩
  by_cases h : s.counter % 64 ≠ 0
  · rw [if_pos h]
    exact lt_of_le_of_lt (List.length_take_le _ _)
      (Nat.mod_lt _ (by norm_num : (0:ℕ) < 64))
  · rw [if_neg h]; simp

end SM3

instance exceptDecEq {ε α : Type} [DecidableEq ε] [DecidableEq α] :
    DecidableEq (Except ε α) := fun x y =>
  match x, y with
  | .ok u, .ok v =>
      if h : u = v then .isTrue (by rw [h])
      else .isFalse (fun hc => h (Except.ok.inj hc))
  | .error u, .error v =>
      if h : u = v then .isTrue (by rw [h])
      else .isFalse (fun hc => h (Except.error.inj hc))
  | .ok _, .error _ => .isFalse (fun hc => Except.noConfusion hc)
  | .error _, .ok _ => .isFalse (fun hc => Except.noConfusion hc)

namespace SM2

/-- `SM2Parameters.p`. -/
def p : ℤ := 0xFFFFFFFEFFFFFFFFFFFFFFFFFFFFFFFFFFFFFFFF00000000FFFFFFFFFFFFFFFF

/-- `SM2Parameters.a`. -/
def a : ℤ := 0xFFFFFFFEFFFFFFFFFFFFFFFFFFFFFFFFFFFFFFFF00000000FFFFFFFFFFFFFFFC

/-- `SM2Parameters.b`. -/
def b : ℤ := 0x28E9FA9E9D9F5E344D5A9E4BCF6509A7F39789F515AB8F92DDBCBD414D940E93

/-- `SM2Parameters.gx`. -/
def gx : ℤ := 0x32C4AE2C1F1981195F9904466A39C9948FE30BBFF2660BE1715A4589334C74C7

/-- `SM2Parameters.gy`. -/
def gy : ℤ := 0xBC3736A2F4F6779C59BDCEE36B692153D0A9877CC62A474002DF32E52139F0A0

/-- `SM2Parameters.n`. -/
def n : ℤ := 0xFFFFFFFEFFFFFFFFFFFFFFFFFFFFFFFF7203DF6B21C6052B53BBF40939D54123

/-- `SM2Point`: either the point at infinity (`SM2Point()`) or an affine pair.
`is_infinity` is `x is None and y is None`, so the two constructors cover the
values the source ever builds; `__eq__` is value equality, matching `DecidableEq`. -/
inductive Pt where
  | inf
  | fin (x y : ℤ)
  deriving DecidableEq, Repr

/-- The error paths of the crypto core (each a `raise` site in the source). -/
inductive Err where
  /-- `_mod_inverse`: `raise ValueError("模逆不存在")` when `gcd ≠ 1`. -/
  | modInv
  /-- `_encrypt_c1c3c2`: invalid public-key bytes (length ≠ 65 or missing `0x04`). -/
  | invalidPublicKey
  /-- `_decrypt_c1c3c2`: ciphertext shorter than 97 bytes. -/
  | cipherTooShort
  /-- `_decrypt_c1c3c2`: first ciphertext byte is not `0x04`. -/
  | invalidC1
  /-- `_decrypt_c1c3c2`: `raise ValueError("密文验证失败，可能已被篡改")` — C3 mismatch. -/
  | tampered
  /-- Python `int.to_bytes(32,'big')` failing (negative or ≥ 2^256), or an attribute
  access `point.x` on the infinity point (`None`). -/
  | coordUnavailable
  /-- Artificial: the modelled stream of random `k` draws ran out (the source loops forever). -/
  | entropyExhausted
  /-- `plain_bytes.decode('utf-8')` failing. -/
  | badUtf8
  /-- `decrypt`: neither valid base64 nor valid hex. -/
  | undecodable
  deriving DecidableEq, Repr

/-- The inner `extended_gcd(a, b)` closure of `SM2KeyGenerator._mod_inverse`,
with explicit fuel (the source recursion terminates because the first argument
strictly decreases; any `fuel >` first argument is exact).  Returns `(gcd, x, y)`. -/
def xgcdF : ℕ → ℤ → ℤ → ℤ × ℤ × ℤ
  | 0, _, b0 => (b0, 0, 1)
  | fuel + 1, a0, b0 =>
      if a0 = 0 then (b0, 0, 1)
      else
        let r := xgcdF fuel (b0 % a0) a0
        (r.1, r.2.2 - (b0 / a0) * r.2.1, r.2.1)

/-- `SM2KeyGenerator._mod_inverse`.  Python `%` and `//` agree with Lean's `%` and `/`
on `ℤ` for the nonnegative arguments reaching them here. -/
def modInverse (a0 m : ℤ) : Except Err ℤ :=
  let a1 := if a0 < 0 then (a0 % m + m) % m else a0
  let r := xgcdF (a1.toNat + 1) a1 m
  if r.1 ≠ 1 then .error .modInv else .ok ((r.2.1 % m + m) % m)

/-- `SM2KeyGenerator._point_double`. -/
def pointDouble : Pt → Except Err Pt
  | .inf => .ok .inf
  | .fin x y => do
      let inv ← modInverse (2 * y) p
      let lam := ((3 * x * x + a) * inv) % p
      let x3 := (lam * lam - 2 * x) % p
      let y3 := (lam * (x - x3) - y) % p
      .ok (.fin x3 y3)

/-- `SM2KeyGenerator._point_add`. -/
def pointAdd : Pt → Pt → Except Err Pt
  | .inf, p2 => .ok p2
  | p1, .inf => .ok p1
  | .fin x1 y1, .fin x2 y2 =>
      if x1 = x2 then
        if y1 = y2 then pointDouble (.fin x1 y1)
        else .ok .inf
      else do
        let inv ← modInverse (x2 - x1) p
        let lam := ((y2 - y1) * inv) % p
        let x3 := (lam * lam - x1 - x2) % p
        let y3 := (lam * (x1 - x3) - y1) % p
        .ok (.fin x3 y3)

/-- The `while k` loop of `SM2KeyGenerator._point_multiply`, fuelled (the loop runs
once per bit of `k`; any `fuel ≥` the bit count is exact).  Note the source doubles
`addend` once more even on the final iteration. -/
def mulLoop : ℕ → ℕ → Pt → Pt → Except Err Pt
  | 0, _, result, _ => .ok result
  | fuel + 1, k, result, addend =>
      if k = 0 then .ok result
      else do
        let r' ← if k % 2 = 1 then pointAdd result addend else .ok result
        let ad' ← pointDouble addend
        mulLoop fuel (k / 2) r' ad'

/-- `SM2KeyGenerator._point_multiply` for the nonnegative scalars the system uses
(Python would loop forever on a negative `k`; every call site passes a parsed hex
integer or a freshly drawn scalar, both nonnegative). -/
def pointMul (k : ℕ) (pt : Pt) : Except Err Pt :=
  if k = 0 then .ok .inf
  else if k = 1 then .ok pt
  else mulLoop (k + 1) k .inf pt

/-- The base point `G`. -/
def basePoint : Pt := .fin gx gy

/-- `SM2KeyGenerator._compute_public_key`. -/
def computePublicKey (d : ℕ) : Except Err Pt := pointMul d basePoint

/-- The curve-equation invariant of the spec's data model: a non-infinity point
satisfies `y² ≡ x³ + a·x + b (mod p)`; the infinity point carries no constraint. -/
def onCurve : Pt → Prop
  | .inf => True
  | .fin x y => y ^ 2 % p = (x ^ 3 + a * x + b) % p

instance onCurve.dec : DecidablePred onCurve
  | .inf => .isTrue trivial
  | .fin x y => inferInstanceAs (Decidable (y ^ 2 % p = (x ^ 3 + a * x + b) % p))

/-- Python `int.to_bytes(32, 'big')`: 32 big-endian bytes, may raise `OverflowError`. -/
def int32be (x : ℤ) : Except Err (List ℕ) :=
  if 0 ≤ x ∧ x < 2 ^ 256 then .ok (SM3.natToBytesBE 32 x.toNat) else .error .coordUnavailable

/-- The `for i in range(1, hash_rounds + 1)` loop of `SM2Crypto._kdf`:
`count` remaining rounds starting at counter value `i`. -/
def kdfLoop (sharedKey : List ℕ) : ℕ → ℕ → List ℕ
  | _, 0 => []
  | i, count + 1 =>
      SM3.sm3 (sharedKey ++ SM3.natToBytesBE 4 i) ++ kdfLoop sharedKey (i + 1) count

/-- `SM2Crypto._kdf`. -/
def kdf (sharedKey : List ℕ) (keyLen : ℕ) : List ℕ :=
  if keyLen = 0 then []
  else (kdfLoop sharedKey 1 ((keyLen + 31) / 32)).take keyLen

/-- The public-key parsing common to both branches of `_encrypt_c1c3c2`
(lines 69-75 and 102-109): `bytes.fromhex` already applied, so the argument is
the 65-byte uncompressed key. -/
def parsePubKey (pubBytes : List ℕ) : Except Err Pt :=
  if pubBytes.length = 65 ∧ pubBytes.getD 0 0 = 4 then
    .ok (.fin (SM3.bytesToNat ((pubBytes.drop 1).take 32))
              (SM3.bytesToNat ((pubBytes.drop 33).take 32)))
  else .error .invalidPublicKey

/-- Coordinates of a non-infinity point (`point.x` / `point.y`; `None` on infinity
raises at the subsequent `.to_bytes`). -/
def coords : Pt → Except Err (ℤ × ℤ)
  | .inf => .error .coordUnavailable
  | .fin x y => .ok (x, y)

/-- The empty-plaintext branch of `SM2Crypto._encrypt_c1c3c2` (lines 66-100),
for one drawn scalar `k`. -/
def encryptEmpty (pubBytes : List ℕ) (k : ℕ) : Except Err (List ℕ) := do
  let pubPt ← parsePubKey pubBytes
  let c1pt ← pointMul k basePoint
  let kpPt ← pointMul k pubPt
  let (x2, y2) ← coords kpPt
  let x2b ← int32be x2
  let y2b ← int32be y2
  let c3 := SM3.sm3 (x2b ++ ([] : List ℕ) ++ y2b)
  let (x1, y1) ← coords c1pt
  let x1b ← int32be x1
  let y1b ← int32be y1
  .ok (4 :: (x1b ++ y1b) ++ c3)

/-- One iteration of the `while True` loop of `_encrypt_c1c3c2` (lines 114-149)
for a drawn scalar `k`: `none` means the all-zero-mask retry (`continue`). -/
def encryptStep (pubPt : Pt) (plain : List ℕ) (k : ℕ) : Except Err (Option (List ℕ)) := do
  let c1pt ← pointMul k basePoint
  let kpPt ← pointMul k pubPt
  let (x2, y2) ← coords kpPt
  let x2b ← int32be x2
  let y2b ← int32be y2
  let sharedKey := x2b ++ y2b
  let encryptionKey := kdf sharedKey plain.length
  if encryptionKey = List.replicate plain.length 0 then
    .ok none
  else do
    let c2 := List.zipWith (fun mb kb => mb ^^^ kb) plain encryptionKey
    let c3 := SM3.sm3 (x2b ++ plain ++ y2b)
    let (x1, y1) ← coords c1pt
    let x1b ← int32be x1
    let y1b ← int32be y1
    .ok (some (4 :: (x1b ++ y1b) ++ c3 ++ c2))

/-- The `while True` retry loop, consuming scalars from the modelled random stream `ks`. -/
def encryptLoop (pubPt : Pt) (plain : List ℕ) : List ℕ → Except Err (List ℕ)
  | [] => .error .entropyExhausted
  | k :: ks => do
      match ← encryptStep pubPt plain k with
      | some ct => .ok ct
      | none => encryptLoop pubPt plain ks

/-- `SM2Crypto._encrypt_c1c3c2`, with the random draws made explicit as the
stream `ks` (the source draws a fresh `k` per loop iteration; the empty-plaintext
branch draws exactly one). -/
def encryptC1C3C2 (pubBytes plain : List ℕ) (ks : List ℕ) : Except Err (List ℕ) :=
  if plain.length = 0 then
    match ks with
    | [] => .error .entropyExhausted
    | k :: _ => encryptEmpty pubBytes k
  else do
    let pubPt ← parsePubKey pubBytes
    encryptLoop pubPt plain ks

/-- The C1 parsing of `_decrypt_c1c3c2` (lines 169-179); the caller has already
checked the 97-byte minimum, so the three slices are well defined. -/
def parseC1 (cipher : List ℕ) : Except Err Pt :=
  if cipher.getD 0 0 ≠ 4 then .error .invalidC1
  else .ok (.fin (SM3.bytesToNat ((cipher.drop 1).take 32))
                 (SM3.bytesToNat ((cipher.drop 33).take 32)))

/-- `SM2Crypto._decrypt_c1c3c2` (the private key already parsed from hex to `d`). -/
def decryptC1C3C2 (d : ℕ) (cipher : List ℕ) : Except Err (List ℕ) :=
  if cipher.length < 97 then .error .cipherTooShort
  else do
    let c3 := (cipher.drop 65).take 32
    let c2 := cipher.drop 97
    let c1pt ← parseC1 cipher
    let dc1 ← pointMul d c1pt
    let (x2, y2) ← coords dc1
    let x2b ← int32be x2
    let y2b ← int32be y2
    if c2.length = 0 then
      let computed := SM3.sm3 (x2b ++ ([] : List ℕ) ++ y2b)
      if computed ≠ c3 then .error .tampered else .ok []
    else
      let sharedKey := x2b ++ y2b
      let decryptionKey := kdf sharedKey c2.length
      let plain := List.zipWith (fun cb kb => cb ^^^ kb) c2 decryptionKey
      let computed := SM3.sm3 (x2b ++ plain ++ y2b)
      if computed ≠ c3 then .error .tampered else .ok plain

/-- Strict UTF-8 validity as checked by Python `bytes.decode('utf-8')`
(rejects continuation errors, overlong forms, surrogates, and values above U+10FFFF). -/
def utf8Valid : List ℕ → Bool
  | [] => true
  | b0 :: rest =>
      if b0 ≤ 0x7F then utf8Valid rest
      else if 0xC2 ≤ b0 ∧ b0 ≤ 0xDF then
        match rest with
        | b1 :: r => if 0x80 ≤ b1 ∧ b1 ≤ 0xBF then utf8Valid r else false
        | [] => false
      else if 0xE0 ≤ b0 ∧ b0 ≤ 0xEF then
        match rest with
        | b1 :: b2 :: r =>
            let lo1 : ℕ := if b0 = 0xE0 then 0xA0 else 0x80
            let hi1 : ℕ := if b0 = 0xED then 0x9F else 0xBF
            if lo1 ≤ b1 ∧ b1 ≤ hi1 ∧ 0x80 ≤ b2 ∧ b2 ≤ 0xBF then utf8Valid r else false
        | _ => false
      else if 0xF0 ≤ b0 ∧ b0 ≤ 0xF4 then
        match rest with
        | b1 :: b2 :: b3 :: r =>
            let lo1 : ℕ := if b0 = 0xF0 then 0x90 else 0x80
            let hi1 : ℕ := if b0 = 0xF4 then 0x8F else 0xBF
            if lo1 ≤ b1 ∧ b1 ≤ hi1 ∧ 0x80 ≤ b2 ∧ b2 ≤ 0xBF ∧ 0x80 ≤ b3 ∧ b3 ≤ 0xBF then
              utf8Valid r
            else false
        | _ => false
      else false

/-- The format-detection body of `SM2Crypto.decrypt` (lines 332-354), after the
ciphertext has been decoded to bytes: try the C1C2C3 reading first (reassembling to
C1C3C2), and on any failure — including a UTF-8 decode failure of the recovered
plaintext — fall back to the native C1C3C2 reading, whose errors propagate.
Returns the plaintext bytes of the successfully decoded UTF-8 string. -/
def decryptDetect (d : ℕ) (cipherBytes : List ℕ) : Except Err (List ℕ) :=
  let firstAttempt : Except Err (List ℕ) :=
    if 97 ≤ cipherBytes.length ∧ cipherBytes.getD 0 0 = 4 then do
      let c1b := cipherBytes.take 65
      let c3 := cipherBytes.drop (cipherBytes.length - 32)
      let c2 := (cipherBytes.drop 65).take (cipherBytes.length - 32 - 65)
      let reassembled := c1b ++ c3 ++ c2
      let plain ← decryptC1C3C2 d reassembled
      if utf8Valid plain then .ok plain else .error .badUtf8
    else .error .invalidC1
  match firstAttempt with
  | .ok plain => .ok plain
  | .error _ => do
      let plain ← decryptC1C3C2 d cipherBytes
      if utf8Valid plain then .ok plain else .error .badUtf8

/-- Value of a standard base64 alphabet character; strings are modelled as lists of
character codes (`'A'` = 65, `'a'` = 97, `'0'` = 48, `'+'` = 43, `'/'` = 47). -/
def b64Val (c : ℕ) : Option ℕ :=
  if 65 ≤ c ∧ c ≤ 90 then some (c - 65)
  else if 97 ≤ c ∧ c ≤ 122 then some (c - 97 + 26)
  else if 48 ≤ c ∧ c ≤ 57 then some (c - 48 + 52)
  else if c = 43 then some 62
  else if c = 47 then some 63
  else none

/-- Decode 6-bit groups, four at a time, into bytes. -/
def b64Quads : List ℕ → List ℕ
  | v0 :: v1 :: v2 :: v3 :: rest =>
      (v0 * 4 + v1 / 16) :: ((v1 % 16) * 16 + v2 / 4) :: ((v2 % 4) * 64 + v3)
        :: b64Quads rest
  | _ => []

/-- Model of Python `base64.b64decode` with `validate=False`: characters outside the
alphabet and `=` are discarded, the data must then fill 4-character groups, with at
most two trailing `=` pads completing the final group (1 pad → final group yields
2 bytes, 2 pads → 1 byte).  Pads anywhere but the tail are rejected here, slightly
stricter than CPython's lenient scanner; no theorem below exercises such inputs. -/
def b64decode (s : List ℕ) : Except Unit (List ℕ) :=
  let kept := s.filter (fun c => (b64Val c).isSome ∨ c = 61)
  let dataChars := kept.takeWhile (fun c => c ≠ 61)
  let padChars := kept.drop dataChars.length
  let vals := dataChars.filterMap b64Val
  if ¬ padChars.all (fun c => c = 61) then .error ()
  else if padChars.length = 0 then
    if vals.length % 4 ≠ 0 then .error () else .ok (b64Quads vals)
  else if padChars.length = 1 ∧ vals.length % 4 = 3 then
    .ok ((b64Quads (vals.take (vals.length - 3))).append
      (((b64Quads (vals.drop (vals.length - 3) ++ [0])).take 2)))
  else if padChars.length = 2 ∧ vals.length % 4 = 2 then
    .ok ((b64Quads (vals.take (vals.length - 2))).append
      (((b64Quads (vals.drop (vals.length - 2) ++ [0, 0])).take 1)))
  else .error ()

/-- Value of a hexadecimal digit (as a character code). -/
def hexVal (c : ℕ) : Option ℕ :=
  if 48 ≤ c ∧ c ≤ 57 then some (c - 48)
  else if 97 ≤ c ∧ c ≤ 102 then some (c - 97 + 10)
  else if 65 ≤ c ∧ c ≤ 70 then some (c - 65 + 10)
  else none

/-- Python `bytes.fromhex` on the already-whitespace-stripped string: an even number
of hex digits, pairwise combined. -/
def hexDecode : List ℕ → Except Unit (List ℕ)
  | [] => .ok []
  | c1 :: c2 :: rest => do
      match hexVal c1, hexVal c2 with
      | some v1, some v2 =>
          let tail ← hexDecode rest
          .ok ((v1 * 16 + v2) :: tail)
      | _, _ => .error ()
  | _ => .error ()

/-- The `replace(" ", "").replace("\n", "").replace("\r", "")` preprocessing
(codes 32, 10, 13). -/
def stripWs (s : List ℕ) : List ℕ :=
  s.filter (fun c => c ≠ 32 ∧ c ≠ 10 ∧ c ≠ 13)

/-- The decoding stage of `SM2Crypto.decrypt` (lines 305-330): base64 first, then
hex with the missing-`0x04`-prefix heuristic. -/
def decodeCipher (s : List ℕ) : Except Err (List ℕ) :=
  match b64decode s with
  | .ok cipherBytes => .ok cipherBytes
  | .error _ =>
      match hexDecode (stripWs s) with
      | .error _ => .error .undecodable
      | .ok cipherBytes =>
          if 64 ≤ cipherBytes.length ∧ cipherBytes.getD 0 0 ≠ 4 then
            if cipherBytes.length = 99 then .ok (4 :: cipherBytes)
            else if cipherBytes.length = 96 then .ok (4 :: cipherBytes)
            else if 96 ≤ cipherBytes.length then .ok (4 :: cipherBytes)
            else .ok cipherBytes
          else .ok cipherBytes

/-- `SM2Crypto.decrypt` (the private key already parsed): decode, then format-detect
and decrypt. -/
def decryptFull (d : ℕ) (s : List ℕ) : Except Err (List ℕ) := do
  let cipherBytes ← decodeCipher s
  decryptDetect d cipherBytes

/-- Python `bytes.hex()`: lowercase hexadecimal character codes, two per byte. -/
def hexDigitChar (v : ℕ) : ℕ :=
  if v < 10 then 48 + v else 97 + v - 10

/-- Python `bytes.hex()` over a byte list. -/
def toHexChars : List ℕ → List ℕ
  | [] => []
  | byte :: rest => hexDigitChar (byte / 16) :: hexDigitChar (byte % 16) :: toHexChars rest

namespace Inputs

/-- A valid 97-byte ciphertext of the empty plaintext under the key pair d = 1,
public key G (ephemeral scalar k = 1): `C1 = G`, `C3 = SM3(Gx_bytes ++ Gy_bytes)`. -/
def ct97 : List ℕ := [4, 50, 196, 174, 44, 31, 25, 129, 25, 95, 153, 4, 70, 106, 57, 201, 148, 143, 227, 11, 191, 242, 102, 11, 225, 113, 90, 69, 137, 51, 76, 116, 199, 188, 55, 54, 162, 244, 246, 119, 156, 89, 189, 206, 227, 107, 105, 33, 83, 208, 169, 135, 124, 198, 42, 71, 64, 2, 223, 50, 229, 33, 57, 240, 160, 55, 35, 29, 145, 31, 144, 23, 177, 16, 198, 208, 70, 227, 33, 222, 220, 199, 39, 97, 190, 27, 191, 22, 21, 159, 103, 159, 253, 152, 24, 58, 105]

/-- A valid 98-byte ciphertext of the plaintext `b"a"` under the same key pair (k = 1). -/
def ct98 : List ℕ := [4, 50, 196, 174, 44, 31, 25, 129, 25, 95, 153, 4, 70, 106, 57, 201, 148, 143, 227, 11, 191, 242, 102, 11, 225, 113, 90, 69, 137, 51, 76, 116, 199, 188, 55, 54, 162, 244, 246, 119, 156, 89, 189, 206, 227, 107, 105, 33, 83, 208, 169, 135, 124, 198, 42, 71, 64, 2, 223, 50, 229, 33, 57, 240, 160, 47, 235, 201, 29, 132, 85, 63, 192, 54, 88, 82, 179, 222, 37, 24, 114, 26, 1, 38, 100, 230, 116, 71, 163, 61, 93, 58, 99, 61, 66, 208, 21, 166]

/-- A valid 100-byte ciphertext of the plaintext `b"abc"` under the same key pair (k = 1). -/
def ct100 : List ℕ := [4, 50, 196, 174, 44, 31, 25, 129, 25, 95, 153, 4, 70, 106, 57, 201, 148, 143, 227, 11, 191, 242, 102, 11, 225, 113, 90, 69, 137, 51, 76, 116, 199, 188, 55, 54, 162, 244, 246, 119, 156, 89, 189, 206, 227, 107, 105, 33, 83, 208, 169, 135, 124, 198, 42, 71, 64, 2, 223, 50, 229, 33, 57, 240, 160, 175, 150, 204, 52, 166, 45, 221, 188, 52, 104, 229, 44, 141, 255, 227, 199, 5, 21, 221, 129, 127, 193, 239, 63, 211, 129, 56, 59, 38, 18, 180, 198, 166, 107, 48]

/-- The 65-byte serialization of the base point `G` (the public key of the pair `d = 1`). -/
def gBytes : List ℕ := ct97.take 65

/-- The first 65 bytes of a structurally well-formed ciphertext whose C1 segment
decodes to the off-curve, `y = 0` point `(1, 0)`. -/
def c1y0 : List ℕ := 4 :: ((List.replicate 31 0 ++ [1]) ++ List.replicate 32 0)

/-- A 97-byte ciphertext that passes the structural checks of `_decrypt_c1c3c2`
(length and `0x04` lead byte) but whose C1 point is `(1, 0)`. -/
def ctY0 : List ℕ := c1y0 ++ List.replicate 32 0

/-- A 97-byte ciphertext that passes the structural checks of `_decrypt_c1c3c2`
but whose C1 point is `(0, 1)`, which is not on the curve. -/
def ct01 : List ℕ :=
  4 :: (List.replicate 32 0 ++ (List.replicate 31 0 ++ [1])) ++ List.replicate 32 0

end Inputs

end SM2

/-- C10: after construction and after every sequence of `update`/`digest` calls, the
hasher state is well-formed: all eight state words are below `2^32`, the pending buffer
is strictly shorter than 64 bytes, and the counter equals the total number of bytes
passed to `update` since the reset. -/
theorem C10_hash_state_well_formed (ops : List SM3.Op) :
    (∀ w ∈ (SM3.runOps ops).state, w < 2 ^ 32) ∧
      (SM3.runOps ops).buffer.length < 64 ∧
      (SM3.runOps ops).counter = SM3.totalBytes ops := by
  suffices h : ∀ (s : SM3.S) (n : ℕ),
      (∀ w ∈ s.state, w < 2 ^ 32) → s.buffer.length < 64 → s.counter = n →
      (∀ w ∈ (ops.foldl SM3.applyOp s).state, w < 2 ^ 32) ∧
        (ops.foldl SM3.applyOp s).buffer.length < 64 ∧
        (ops.foldl SM3.applyOp s).counter = n + SM3.totalBytes ops by
    have h0 : ∀ w ∈ SM3.resetS.state, w < 2 ^ 32 := by decide
    simpa [SM3.runOps] using h SM3.resetS 0 h0 (by simp [SM3.resetS]) rfl
  induction ops with
  | nil => intro s n h1 h2 h3; simpa [SM3.totalBytes] using ⟨h1, h2, h3⟩
  | cons op rest ih =>
      intro s n h1 h2 h3
      cases op with
      | upd data =>
          obtain ⟨g1, g2, g3⟩ := SM3.update_wf s data h1
          have := ih (SM3.update s data) (n + data.length) g1 g2 (by omega)
          simpa [SM3.applyOp, SM3.totalBytes] using by
            obtain ⟨a1, a2, a3⟩ := this
            exact ⟨a1, a2, by simp [SM3.totalBytes] at a3 ⊢; omega⟩
      | dig =>
          obtain ⟨g1, g2, g3⟩ := SM3.digest_wf s h1
          have := ih (SM3.digest s).2 n g1 g2 (by omega)
          simpa [SM3.applyOp, SM3.totalBytes] using this

/-- C8: the one-shot hash of the empty message and of `b"abc"` equal the pinned
reference digests of the GB/T 32905-2016 standard. -/
theorem C8_reference_digests :
    SM3.sm3 [] =
      [0x1a, 0xb2, 0x1d, 0x83, 0x55, 0xcf, 0xa1, 0x7f, 0x8e, 0x61, 0x19, 0x48, 0x31, 0xe8,
       0x1a, 0x8f, 0x22, 0xbe, 0xc8, 0xc7, 0x28, 0xfe, 0xfb, 0x74, 0x7e, 0xd0, 0x35, 0xeb,
       0x50, 0x82, 0xaa, 0x2b] ∧
    SM3.sm3 [0x61, 0x62, 0x63] =
      [0x66, 0xc7, 0xf0, 0xf4, 0x62, 0xee, 0xed, 0xd9, 0xd1, 0xf2, 0xd4, 0x6b, 0xdc, 0x10,
       0xe4, 0xe2, 0x41, 0x67, 0xc4, 0x87, 0x5c, 0xf2, 0xf7, 0xa2, 0x29, 0x7d, 0xa0, 0x2b,
       0x8f, 0x4b, 0xa8, 0xe0] := by
  constructor <;> decide

/-- C2: refuted on the code — `digest` does *not* leave the live hasher state intact.
After `update(b"a")`, the first `digest()` erases the single pending byte (the source
restores `self.buffer` from the already-consumed padded buffer), so the state after
`digest` differs from the state before it, a second `digest()` returns a different
32-byte value, and a subsequent `update(b"b")`-then-`digest()` no longer equals the
one-shot hash of `b"ab"`. -/
theorem C2_digest_disturbs_state :
    (SM3.digest (SM3.update SM3.resetS [97])).2 ≠ SM3.update SM3.resetS [97] ∧
    (SM3.digest ((SM3.digest (SM3.update SM3.resetS [97])).2)).1 ≠
      (SM3.digest (SM3.update SM3.resetS [97])).1 ∧
    (SM3.digest (SM3.update ((SM3.digest (SM3.update SM3.resetS [97])).2) [98])).1 ≠
      SM3.sm3 [97, 98] := by
  refine ⟨by decide, by decide, by decide⟩

namespace SM3

theorem natToBytesBE_length (len n : ℕ) : (natToBytesBE len n).length = len := by
  induction len generalizing n with
  | zero => rfl
  | succ k ih => simp [natToBytesBE, ih]

theorem bytesToNat_foldl (l : List ℕ) (acc : ℕ) :
    l.foldl (fun acc b => acc * 256 + b) acc =
      acc * 256 ^ l.length + l.foldl (fun acc b => acc * 256 + b) 0 := by
  induction l generalizing acc with
  | nil => simp
  | cons x xs ih =>
      simp only [List.foldl_cons, List.length_cons]
      rw [ih (acc * 256 + x), ih (0 * 256 + x)]
      ring

theorem bytesToNat_natToBytesBE (len n : ℕ) (h : n < 256 ^ len) :
    bytesToNat (natToBytesBE len n) = n := by
  induction len generalizing n with
  | zero => simpa [natToBytesBE, bytesToNat] using by omega
  | succ k ih =>
      have hdiv : n / 256 < 256 ^ k := by
        rw [Nat.div_lt_iff_lt_mul (by norm_num)]
        calc n < 256 ^ (k + 1) := h
          _ = 256 ^ k * 256 := by ring
      simp only [natToBytesBE, bytesToNat, List.foldl_append, List.foldl_cons, List.foldl_nil]
      have := ih (n / 256) hdiv
      simp only [bytesToNat] at this
      rw [this]
      omega

theorem compress_length (st blk : List ℕ) (h : st.length = 8) :
    (compress st blk).length = 8 := by
  unfold compress
  simp [List.length_zipWith, h]

theorem compressChunks_fst_length (fuel : ℕ) (st buf : List ℕ) (h : st.length = 8) :
    (compressChunks fuel st buf).1.length = 8 := by
  induction fuel generalizing st buf with
  | zero => simpa [compressChunks] using h
  | succ k ih =>
      unfold compressChunks
      by_cases hl : 64 ≤ buf.length
      · simpa [hl] using ih _ _ (compress_length st _ h)
      · simpa [hl] using h

theorem wordsToBytesBE_length (width : ℕ) (ws : List ℕ) :
    (wordsToBytesBE width ws).length = width * ws.length := by
  induction ws with
  | nil => simp [wordsToBytesBE]
  | cons w rest ih => simp [wordsToBytesBE, natToBytesBE_length, ih]; ring

theorem digest_fst_length (s : S) (h : s.state.length = 8) : (digest s).1.length = 32 := by
  dsimp only [digest]
  rw [wordsToBytesBE_length, compressChunks_fst_length _ _ _ h]

theorem update_state_length (s : S) (data : List ℕ) (h : s.state.length = 8) :
    (update s data).state.length = 8 := by
  dsimp only [update]
  exact compressChunks_fst_length _ _ _ h

theorem sm3_length (data : List ℕ) : (sm3 data).length = 32 := by
  unfold sm3
  exact digest_fst_length _ (update_state_length resetS data (by decide))

end SM3

namespace SM2

theorem kdfLoop_length (sharedKey : List ℕ) (i count : ℕ) :
    (kdfLoop sharedKey i count).length = 32 * count := by
  induction count generalizing i with
  | zero => rfl
  | succ k ih => simp [kdfLoop, SM3.sm3_length, ih]; ring

theorem kdf_length (sharedKey : List ℕ) (keyLen : ℕ) : (kdf sharedKey keyLen).length = keyLen := by
  unfold kdf
  by_cases h : keyLen = 0
  · simp [h]
  · rw [if_neg h, List.length_take, kdfLoop_length]
    have h32 := Nat.div_add_mod (keyLen + 31) 32
    omega

theorem zipWith_xor_cancel (m e : List ℕ) (h : m.length ≤ e.length) :
    List.zipWith (fun cb kb => cb ^^^ kb)
      (List.zipWith (fun mb kb => mb ^^^ kb) m e) e = m := by
  induction m generalizing e with
  | nil => simp
  | cons x xs ih =>
      cases e with
      | nil => simp at h
      | cons y ys =>
          simp only [List.zipWith, List.length_cons] at h ⊢
          refine congrArg₂ _ ?_ (ih ys (by omega))
          rw [Nat.xor_assoc, Nat.xor_self, Nat.xor_zero]

/-- Inversion of `Except.bind` hitting `ok` (do-notation steps). -/
theorem bindOk {ε α β : Type} {x : Except ε α} {f : α → Except ε β} {c : β}
    (h : x.bind f = .ok c) : ∃ a0, x = .ok a0 ∧ f a0 = .ok c := by
  cases x with
  | error e => simp [Except.bind] at h
  | ok a0 => exact ⟨a0, rfl, by simpa [Except.bind] using h⟩

theorem int32be_ok {x : ℤ} {l : List ℕ} (h : int32be x = .ok l) :
    0 ≤ x ∧ x < 2 ^ 256 ∧ l = SM3.natToBytesBE 32 x.toNat := by
  unfold int32be at h
  by_cases hb : 0 ≤ x ∧ x < 2 ^ 256
  · rw [if_pos hb] at h
    exact ⟨hb.1, hb.2, (Except.ok.inj h).symm⟩
  · rw [if_neg hb] at h
    exact absurd h (by simp)

theorem int32be_length {x : ℤ} {l : List ℕ} (h : int32be x = .ok l) : l.length = 32 := by
  rw [(int32be_ok h).2.2]
  exact SM3.natToBytesBE_length 32 _

theorem coords_ok {pt : Pt} {xy : ℤ × ℤ} (h : coords pt = .ok xy) :
    pt = .fin xy.1 xy.2 := by
  cases pt with
  | inf => simp [coords] at h
  | fin x y =>
      obtain ⟨u, v⟩ := xy
      simp only [coords, Except.ok.injEq, Prod.mk.injEq] at h
      obtain ⟨rfl, rfl⟩ := h
      rfl

end SM2

namespace SM2

theorem okBind {ε α β : Type} (v : α) (f : α → Except ε β) :
    (Except.ok v >>= f : Except ε β) = f v := rfl

theorem bindOkDo {ε α β : Type} {x : Except ε α} {f : α → Except ε β} {c : β}
    (h : (x >>= f) = .ok c) : ∃ a0, x = .ok a0 ∧ f a0 = .ok c := by
  cases x with
  | error e =>
      replace h : Except.bind (Except.error e) f = Except.ok c := h
      simp [Except.bind] at h
  | ok a0 =>
      replace h : Except.bind (Except.ok a0) f = Except.ok c := h
      exact ⟨a0, rfl, by simpa [Except.bind] using h⟩

theorem encryptEmpty_inv {pub : List ℕ} {k : ℕ} {ct : List ℕ}
    (h : encryptEmpty pub k = .ok ct) :
    ∃ (pubPt : Pt) (x1 y1 x2 y2 : ℤ),
      parsePubKey pub = .ok pubPt ∧
      pointMul k basePoint = .ok (.fin x1 y1) ∧
      pointMul k pubPt = .ok (.fin x2 y2) ∧
      0 ≤ x1 ∧ x1 < 2 ^ 256 ∧ 0 ≤ y1 ∧ y1 < 2 ^ 256 ∧
      0 ≤ x2 ∧ x2 < 2 ^ 256 ∧ 0 ≤ y2 ∧ y2 < 2 ^ 256 ∧
      ct = 4 :: (SM3.natToBytesBE 32 x1.toNat ++ SM3.natToBytesBE 32 y1.toNat)
        ++ SM3.sm3 (SM3.natToBytesBE 32 x2.toNat ++ ([] : List ℕ)
            ++ SM3.natToBytesBE 32 y2.toNat) := by
  unfold encryptEmpty at h
  obtain ⟨pubPt, hpk, h⟩ := bindOkDo h
  obtain ⟨c1pt, hc1, h⟩ := bindOkDo h
  obtain ⟨kpPt, hkp, h⟩ := bindOkDo h
  obtain ⟨xy2, hco2, h⟩ := bindOkDo h
  obtain ⟨x2, y2⟩ := xy2
  obtain ⟨x2b, hx2b, h⟩ := bindOkDo h
  obtain ⟨y2b, hy2b, h⟩ := bindOkDo h
  obtain ⟨xy1, hco1, h⟩ := bindOkDo h
  obtain ⟨x1, y1⟩ := xy1
  obtain ⟨x1b, hx1b, h⟩ := bindOkDo h
  obtain ⟨y1b, hy1b, h⟩ := bindOkDo h
  replace h : ct = 4 :: (x1b ++ y1b) ++ SM3.sm3 (x2b ++ ([] : List ℕ) ++ y2b) :=
    (Except.ok.inj h).symm
  obtain ⟨hx1n, hx1l, hx1e⟩ := int32be_ok hx1b
  obtain ⟨hy1n, hy1l, hy1e⟩ := int32be_ok hy1b
  obtain ⟨hx2n, hx2l, hx2e⟩ := int32be_ok hx2b
  obtain ⟨hy2n, hy2l, hy2e⟩ := int32be_ok hy2b
  have e1 : c1pt = .fin x1 y1 := coords_ok hco1
  have e2 : kpPt = .fin x2 y2 := coords_ok hco2
  exact ⟨pubPt, x1, y1, x2, y2, hpk, e1 ▸ hc1, e2 ▸ hkp,
    hx1n, hx1l, hy1n, hy1l, hx2n, hx2l, hy2n, hy2l,
    by rw [h, hx1e, hy1e, hx2e, hy2e]⟩

theorem encryptStep_inv {pubPt : Pt} {plain : List ℕ} {k : ℕ} {ct : List ℕ}
    (h : encryptStep pubPt plain k = .ok (some ct)) :
    ∃ (x1 y1 x2 y2 : ℤ),
      pointMul k basePoint = .ok (.fin x1 y1) ∧
      pointMul k pubPt = .ok (.fin x2 y2) ∧
      0 ≤ x1 ∧ x1 < 2 ^ 256 ∧ 0 ≤ y1 ∧ y1 < 2 ^ 256 ∧
      0 ≤ x2 ∧ x2 < 2 ^ 256 ∧ 0 ≤ y2 ∧ y2 < 2 ^ 256 ∧
      ct = 4 :: (SM3.natToBytesBE 32 x1.toNat ++ SM3.natToBytesBE 32 y1.toNat)
        ++ SM3.sm3 (SM3.natToBytesBE 32 x2.toNat ++ plain ++ SM3.natToBytesBE 32 y2.toNat)
        ++ List.zipWith (fun mb kb => mb ^^^ kb) plain
            (kdf (SM3.natToBytesBE 32 x2.toNat ++ SM3.natToBytesBE 32 y2.toNat)
              plain.length) := by
  unfold encryptStep at h
  obtain ⟨c1pt, hc1, h⟩ := bindOkDo h
  obtain ⟨kpPt, hkp, h⟩ := bindOkDo h
  obtain ⟨xy2, hco2, h⟩ := bindOkDo h
  obtain ⟨x2, y2⟩ := xy2
  obtain ⟨x2b, hx2b, h⟩ := bindOkDo h
  obtain ⟨y2b, hy2b, h⟩ := bindOkDo h
  dsimp only [] at h
  by_cases hzero : kdf (x2b ++ y2b) plain.length = List.replicate plain.length 0
  · rw [if_pos hzero] at h
    exact absurd (Except.ok.inj h) (by simp)
  · rw [if_neg hzero] at h
    obtain ⟨xy1, hco1, h⟩ := bindOkDo h
    obtain ⟨x1, y1⟩ := xy1
    obtain ⟨x1b, hx1b, h⟩ := bindOkDo h
    obtain ⟨y1b, hy1b, h⟩ := bindOkDo h
    replace h := Option.some.inj (Except.ok.inj h)
    obtain ⟨hx1n, hx1l, hx1e⟩ := int32be_ok hx1b
    obtain ⟨hy1n, hy1l, hy1e⟩ := int32be_ok hy1b
    obtain ⟨hx2n, hx2l, hx2e⟩ := int32be_ok hx2b
    obtain ⟨hy2n, hy2l, hy2e⟩ := int32be_ok hy2b
    have e1 : c1pt = .fin x1 y1 := coords_ok hco1
    have e2 : kpPt = .fin x2 y2 := coords_ok hco2
    exact ⟨x1, y1, x2, y2, e1 ▸ hc1, e2 ▸ hkp,
      hx1n, hx1l, hy1n, hy1l, hx2n, hx2l, hy2n, hy2l,
      by rw [← h, hx1e, hy1e, hx2e, hy2e]⟩

end SM2

namespace SM2

theorem parseC1_wellformed (x1b y1b rest : List ℕ) (h1 : x1b.length = 32)
    (h2 : y1b.length = 32) :
    parseC1 (4 :: (x1b ++ y1b) ++ rest) =
      .ok (.fin (SM3.bytesToNat x1b) (SM3.bytesToNat y1b)) := by
  have hform : (4 :: (x1b ++ y1b) ++ rest : List ℕ) = 4 :: (x1b ++ (y1b ++ rest)) := by
    simp [List.append_assoc]
  unfold parseC1
  rw [hform]
  rw [if_neg (by simp)]
  have hdrop1 : (4 :: (x1b ++ (y1b ++ rest)) : List ℕ).drop 1 = x1b ++ (y1b ++ rest) := rfl
  have hdrop33 : (4 :: (x1b ++ (y1b ++ rest)) : List ℕ).drop 33 = y1b ++ rest := by
    have : (4 :: (x1b ++ (y1b ++ rest)) : List ℕ).drop 33 = (x1b ++ (y1b ++ rest)).drop 32 :=
      rfl
    rw [this, List.drop_left' h1]
  rw [hdrop1, hdrop33, List.take_left' h1, List.take_left' h2]

theorem decrypt_of_encrypted (d : ℕ) (m : List ℕ) (x1 y1 x2 y2 : ℤ)
    (hx1 : 0 ≤ x1) (hx1' : x1 < 2 ^ 256) (hy1 : 0 ≤ y1) (hy1' : y1 < 2 ^ 256)
    (hx2 : 0 ≤ x2) (hx2' : x2 < 2 ^ 256) (hy2 : 0 ≤ y2) (hy2' : y2 < 2 ^ 256)
    (hcomm : pointMul d (.fin x1 y1) = .ok (.fin x2 y2)) :
    decryptC1C3C2 d
      (4 :: (SM3.natToBytesBE 32 x1.toNat ++ SM3.natToBytesBE 32 y1.toNat)
        ++ SM3.sm3 (SM3.natToBytesBE 32 x2.toNat ++ m ++ SM3.natToBytesBE 32 y2.toNat)
        ++ List.zipWith (fun mb kb => mb ^^^ kb) m
            (kdf (SM3.natToBytesBE 32 x2.toNat ++ SM3.natToBytesBE 32 y2.toNat) m.length))
      = .ok m := by
  set x1b := SM3.natToBytesBE 32 x1.toNat with hx1b
  set y1b := SM3.natToBytesBE 32 y1.toNat with hy1b
  set x2b := SM3.natToBytesBE 32 x2.toNat with hx2b
  set y2b := SM3.natToBytesBE 32 y2.toNat with hy2b
  set c3h := SM3.sm3 (x2b ++ m ++ y2b) with hc3h
  set mask := kdf (x2b ++ y2b) m.length with hmask
  set c2 := List.zipWith (fun mb kb => mb ^^^ kb) m mask with hc2
  have lx1b : x1b.length = 32 := SM3.natToBytesBE_length 32 _
  have ly1b : y1b.length = 32 := SM3.natToBytesBE_length 32 _
  have lx2b : x2b.length = 32 := SM3.natToBytesBE_length 32 _
  have ly2b : y2b.length = 32 := SM3.natToBytesBE_length 32 _
  have lc3h : c3h.length = 32 := SM3.sm3_length _
  have lmask : mask.length = m.length := kdf_length _ _
  have lc2 : c2.length = m.length := by
    rw [hc2, List.length_zipWith, lmask, Nat.min_self]
  set ct := 4 :: (x1b ++ y1b) ++ c3h ++ c2 with hct
  have lhead : (4 :: (x1b ++ y1b) : List ℕ).length = 65 := by
    simp [lx1b, ly1b]
  have lct : ct.length = 97 + m.length := by
    simp [hct, lx1b, ly1b, lc3h, lc2]
    omega
  have hsplit65 : ct = (4 :: (x1b ++ y1b)) ++ (c3h ++ c2) := by
    simp [hct]
  have hsplit97 : ct = ((4 :: (x1b ++ y1b)) ++ c3h) ++ c2 := by
    simp [hct]
  have hdrop65 : ct.drop 65 = c3h ++ c2 := by
    rw [hsplit65, List.drop_left' lhead]
  have hdrop97 : ct.drop 97 = c2 := by
    rw [hsplit97, List.drop_left'
      (by simp [lx1b, ly1b, lc3h] : ((4 :: (x1b ++ y1b)) ++ c3h).length = 97)]
  have htake32 : (ct.drop 65).take 32 = c3h := by
    rw [hdrop65, List.take_left' lc3h]
  have hparse : parseC1 ct = .ok (.fin x1 y1) := by
    rw [hsplit65]
    rw [parseC1_wellformed x1b y1b _ lx1b ly1b]
    rw [hx1b, hy1b]
    rw [SM3.bytesToNat_natToBytesBE 32 _ (by
      have hb : x1 < (2:ℤ) ^ 256 := hx1'
      norm_num at hb ⊢
      omega),
      SM3.bytesToNat_natToBytesBE 32 _ (by
      have hb : y1 < (2:ℤ) ^ 256 := hy1'
      norm_num at hb ⊢
      omega)]
    rw [Int.toNat_of_nonneg hx1, Int.toNat_of_nonneg hy1]
  unfold decryptC1C3C2
  rw [if_neg (by omega)]
  rw [hparse, okBind, hcomm, okBind]
  rw [show coords (.fin x2 y2) = .ok (x2, y2) from rfl, okBind]
  dsimp only []
  rw [show int32be x2 = .ok x2b from by rw [int32be, if_pos ⟨hx2, hx2'⟩], okBind]
  rw [show int32be y2 = .ok y2b from by rw [int32be, if_pos ⟨hy2, hy2'⟩], okBind]
  rw [htake32, hdrop97]
  by_cases hm : c2.length = 0
  · rw [if_pos hm]
    have hm' : m = [] := by
      rw [lc2] at hm
      exact List.length_eq_zero.mp hm
    subst hm'
    rw [if_neg (not_not_intro
      (show SM3.sm3 (x2b ++ ([] : List ℕ) ++ y2b) = c3h from hc3h.symm))]
  · rw [if_neg hm]
    rw [lc2, ← hmask]
    have hplain : List.zipWith (fun cb kb => cb ^^^ kb) c2 mask = m := by
      rw [hc2]
      exact zipWith_xor_cancel m mask (by omega)
    rw [hplain]
    rw [if_neg (not_not_intro
      (show SM3.sm3 (x2b ++ m ++ y2b) = c3h from hc3h.symm))]

end SM2

namespace SM2

theorem encryptLoop_inv {pubPt : Pt} {plain : List ℕ} :
    ∀ {ks : List ℕ} {ct : List ℕ}, encryptLoop pubPt plain ks = .ok ct →
      ∃ k ∈ ks, encryptStep pubPt plain k = .ok (some ct) := by
  intro ks
  induction ks with
  | nil => intro ct h; exact absurd h (by simp [encryptLoop])
  | cons k ks ih =>
      intro ct h
      unfold encryptLoop at h
      obtain ⟨o, ho, h⟩ := bindOkDo h
      cases o with
      | some ct' =>
          replace h : ct' = ct := Except.ok.inj h
          exact ⟨k, by simp, by rw [ho, h]⟩
      | none =>
          obtain ⟨k', hk', hstep⟩ := ih h
          exact ⟨k', by simp [hk'], hstep⟩

/-- Core round-trip fact: a ciphertext produced by `_encrypt_c1c3c2` decrypts back to
the plaintext with `_decrypt_c1c3c2`, provided the discrete-log identity
`d·(k·G) = k·(d·G)` holds for the ephemeral scalar used (which is the defining
property of a matching key pair, `publicKey = d·G`). -/
theorem decrypt_roundtrip_core (d : ℕ) (pub m ks ct : List ℕ)
    (henc : encryptC1C3C2 pub m ks = .ok ct)
    (hcomm : ∀ (k : ℕ) (x1 y1 x2 y2 : ℤ), k ∈ ks →
      pointMul k basePoint = .ok (.fin x1 y1) →
      (parsePubKey pub).bind (pointMul k) = .ok (.fin x2 y2) →
      pointMul d (.fin x1 y1) = .ok (.fin x2 y2)) :
    decryptC1C3C2 d ct = .ok m ∧
    ∃ (c1 c3 c2 : List ℕ), ct = c1 ++ (c3 ++ c2) ∧ c1.length = 65 ∧ c3.length = 32 ∧
      c2.length = m.length ∧ c1.getD 0 0 = 4 := by
  by_cases hm : m.length = 0
  · have hm' : m = [] := List.length_eq_zero.mp hm
    subst hm'
    unfold encryptC1C3C2 at henc
    rw [if_pos (show ([] : List ℕ).length = 0 from rfl)] at henc
    cases ks with
    | nil => exact absurd henc (by simp)
    | cons k ks' =>
        obtain ⟨pubPt, x1, y1, x2, y2, hpk, hc1, hkp,
          hx1n, hx1l, hy1n, hy1l, hx2n, hx2l, hy2n, hy2l, hcte⟩ := encryptEmpty_inv henc
        have hd : pointMul d (.fin x1 y1) = .ok (.fin x2 y2) :=
          hcomm k x1 y1 x2 y2 (by simp) hc1 (by rw [hpk]; exact hkp)
        have hdec := decrypt_of_encrypted d [] x1 y1 x2 y2
          hx1n hx1l hy1n hy1l hx2n hx2l hy2n hy2l hd
        constructor
        · rw [hcte]
          simpa using hdec
        · refine ⟨4 :: (SM3.natToBytesBE 32 x1.toNat ++ SM3.natToBytesBE 32 y1.toNat),
            SM3.sm3 (SM3.natToBytesBE 32 x2.toNat ++ ([] : List ℕ)
              ++ SM3.natToBytesBE 32 y2.toNat), [], by simpa using hcte,
            by simp [SM3.natToBytesBE_length], SM3.sm3_length _, rfl, rfl⟩
  · unfold encryptC1C3C2 at henc
    rw [if_neg hm] at henc
    obtain ⟨pubPt, hpk, henc⟩ := bindOkDo henc
    obtain ⟨k, hk, hstep⟩ := encryptLoop_inv henc
    obtain ⟨x1, y1, x2, y2, hc1, hkp,
      hx1n, hx1l, hy1n, hy1l, hx2n, hx2l, hy2n, hy2l, hcte⟩ := encryptStep_inv hstep
    have hd : pointMul d (.fin x1 y1) = .ok (.fin x2 y2) :=
      hcomm k x1 y1 x2 y2 hk hc1 (by rw [hpk]; exact hkp)
    have hdec := decrypt_of_encrypted d m x1 y1 x2 y2
      hx1n hx1l hy1n hy1l hx2n hx2l hy2n hy2l hd
    constructor
    · rw [hcte]
      simpa using hdec
    · refine ⟨4 :: (SM3.natToBytesBE 32 x1.toNat ++ SM3.natToBytesBE 32 y1.toNat),
        SM3.sm3 (SM3.natToBytesBE 32 x2.toNat ++ m ++ SM3.natToBytesBE 32 y2.toNat),
        List.zipWith (fun mb kb => mb ^^^ kb) m
          (kdf (SM3.natToBytesBE 32 x2.toNat ++ SM3.natToBytesBE 32 y2.toNat) m.length),
        by simpa using hcte,
        by simp [SM3.natToBytesBE_length], SM3.sm3_length _,
        by simp [List.length_zipWith, kdf_length], rfl⟩

end SM2

/-- C1: for every byte sequence `m` and a matching key pair — `publicKey = d·G`,
expressed by the hypothesis that `d·(k·G) = k·publicKey` for the drawn ephemeral
scalars — decrypting the ciphertext produced by `_encrypt_c1c3c2` with
`_decrypt_c1c3c2` returns exactly `m`; in particular the ciphertext is exactly
`97 + |m|` bytes long (97 for the empty plaintext: 65-byte C1, 32-byte C3, empty C2). -/
theorem C1_encrypt_decrypt_roundtrip (d : ℕ) (pub m ks ct : List ℕ)
    (henc : SM2.encryptC1C3C2 pub m ks = .ok ct)
    (hcomm : ∀ (k : ℕ) (x1 y1 x2 y2 : ℤ), k ∈ ks →
      SM2.pointMul k SM2.basePoint = .ok (.fin x1 y1) →
      (SM2.parsePubKey pub).bind (SM2.pointMul k) = .ok (.fin x2 y2) →
      SM2.pointMul d (.fin x1 y1) = .ok (.fin x2 y2)) :
    SM2.decryptC1C3C2 d ct = .ok m ∧ ct.length = 97 + m.length := by
  obtain ⟨hdec, c1, c3, c2, hsplit, l1, l3, l2, _⟩ :=
    SM2.decrypt_roundtrip_core d pub m ks ct henc hcomm
  exact ⟨hdec, by simp [hsplit, l1, l3, l2]; omega⟩

/-- C9: with an empty plaintext, `_encrypt_c1c3c2` takes the dedicated empty-message
path, consumes exactly one scalar from the random stream (the result is independent
of everything after the first draw, so the all-zero-mask retry loop is never
entered), and produces a ciphertext of exactly 97 bytes: a 65-byte C1 starting with
`0x04`, a 32-byte C3, and an empty C2. -/
theorem C9_empty_plaintext_single_draw (pub ct : List ℕ) (k : ℕ) (ks : List ℕ)
    (henc : SM2.encryptC1C3C2 pub [] (k :: ks) = .ok ct) :
    (∀ ks', SM2.encryptC1C3C2 pub [] (k :: ks') = .ok ct) ∧
    ct.length = 97 ∧
    ∃ c1 c3, ct = c1 ++ c3 ∧ c1.length = 65 ∧ c3.length = 32 ∧ c1.getD 0 0 = 4 := by
  have hred : ∀ ks0 : List ℕ, SM2.encryptC1C3C2 pub [] (k :: ks0) = SM2.encryptEmpty pub k :=
    fun _ => rfl
  have henc' : SM2.encryptEmpty pub k = .ok ct := (hred ks).symm.trans henc
  obtain ⟨pubPt, x1, y1, x2, y2, hpk, hc1, hkp,
    hx1n, hx1l, hy1n, hy1l, hx2n, hx2l, hy2n, hy2l, hcte⟩ := SM2.encryptEmpty_inv henc'
  refine ⟨fun ks' => (hred ks').trans henc', ?_, ?_⟩
  · rw [hcte]
    simp [SM3.natToBytesBE_length, SM3.sm3_length]
  · exact ⟨4 :: (SM3.natToBytesBE 32 x1.toNat ++ SM3.natToBytesBE 32 y1.toNat),
      SM3.sm3 (SM3.natToBytesBE 32 x2.toNat ++ ([] : List ℕ) ++ SM3.natToBytesBE 32 y2.toNat),
      by simpa using hcte, by simp [SM3.natToBytesBE_length], SM3.sm3_length _, rfl⟩

/-- C4: whenever a ciphertext passes the structural checks of `_decrypt_c1c3c2`
(97-byte minimum, `0x04` lead byte — here witnessed by a successful C1 parse and
point multiplication) but the recomputed hash over `dC1.x ∥ recovered-plaintext ∥
dC1.y` differs from the stored C3 field, decryption fails with the
tampered-ciphertext error and returns no plaintext (the error value carries none:
for both the empty-C2 and the masked-C2 paths the single exit with plaintext is the
final verified return). -/
theorem C4_tamper_is_rejected (d : ℕ) (ct : List ℕ) (c1pt : SM2.Pt) (x2 y2 : ℤ)
    (x2b y2b : List ℕ)
    (hlen : 97 ≤ ct.length)
    (hparse : SM2.parseC1 ct = .ok c1pt)
    (hmul : SM2.pointMul d c1pt = .ok (.fin x2 y2))
    (hxb : SM2.int32be x2 = .ok x2b)
    (hyb : SM2.int32be y2 = .ok y2b)
    (hmismatch : SM3.sm3 (x2b ++ List.zipWith (fun cb kb => cb ^^^ kb) (ct.drop 97)
        (SM2.kdf (x2b ++ y2b) (ct.drop 97).length) ++ y2b) ≠ (ct.drop 65).take 32) :
    SM2.decryptC1C3C2 d ct = .error .tampered := by
  unfold SM2.decryptC1C3C2
  rw [if_neg (by omega)]
  rw [hparse, SM2.okBind, hmul, SM2.okBind,
    show SM2.coords (.fin x2 y2) = .ok (x2, y2) from rfl, SM2.okBind]
  dsimp only []
  rw [hxb, SM2.okBind, hyb, SM2.okBind]
  by_cases hc2 : (ct.drop 97).length = 0
  · rw [if_pos hc2]
    have he : ct.drop 97 = [] := List.length_eq_zero.mp hc2
    rw [he] at hmismatch
    rw [if_pos (by simpa using hmismatch)]
  · rw [if_neg hc2]
    rw [if_pos hmismatch]

theorem C1_roundtrip_witness :
    SM2.encryptC1C3C2 SM2.Inputs.gBytes [97] [1] = .ok SM2.Inputs.ct98 ∧
    SM2.decryptC1C3C2 1 SM2.Inputs.ct98 = .ok [97] ∧
    SM2.Inputs.ct98.length = 97 + 1 := by
  have henc : SM2.encryptC1C3C2 SM2.Inputs.gBytes [97] [1] = .ok SM2.Inputs.ct98 := by decide
  have h := C1_encrypt_decrypt_roundtrip 1 SM2.Inputs.gBytes [97] [1] SM2.Inputs.ct98 henc ?_
  · exact ⟨henc, h.1, h.2⟩
  · intro k x1 y1 x2 y2 hk h1 h2
    rcases List.mem_singleton.mp hk with rfl
    have hb : SM2.Pt.fin SM2.gx SM2.gy = .fin x1 y1 := by
      have h1' : (Except.ok SM2.basePoint : Except SM2.Err SM2.Pt) = .ok (.fin x1 y1) := by
        rw [← h1]; rfl
      exact Except.ok.inj h1'
    have hpk : SM2.parsePubKey SM2.Inputs.gBytes = .ok (.fin SM2.gx SM2.gy) := by decide
    rw [hpk] at h2
    have h2' : (Except.ok (SM2.Pt.fin SM2.gx SM2.gy) : Except SM2.Err SM2.Pt)
        = .ok (.fin x2 y2) := by
      rw [← h2]; rfl
    have hb2 := Except.ok.inj h2'
    injection hb with e1 e2
    injection hb2 with e3 e4
    subst e1; subst e2; subst e3; subst e4
    rfl

theorem C9_empty_plaintext_witness :
    SM2.encryptC1C3C2 SM2.Inputs.gBytes [] [1, 5] = .ok SM2.Inputs.ct97 ∧
    SM2.encryptC1C3C2 SM2.Inputs.gBytes [] [1, 99] = .ok SM2.Inputs.ct97 ∧
    SM2.Inputs.ct97.length = 97 := by
  have h := C9_empty_plaintext_single_draw SM2.Inputs.gBytes SM2.Inputs.ct97 1 [5] (by decide)
  exact ⟨h.1 [5], h.1 [99], h.2.1⟩

theorem C4_tamper_witness :
    SM2.decryptC1C3C2 1 (SM2.Inputs.ct97.take 65 ++ List.replicate 32 0)
      = .error .tampered := by
  apply C4_tamper_is_rejected 1 _ (.fin SM2.gx SM2.gy) SM2.gx SM2.gy
    (SM3.natToBytesBE 32 SM2.gx.toNat) (SM3.natToBytesBE 32 SM2.gy.toNat)
  · decide
  · decide
  · decide
  · decide
  · decide
  · decide

/-- C3: `decrypt` (after decoding) first attempts the C1∥C2∥C3 interpretation — last
32 bytes as C3, bytes 65 up to the last 32 as C2, reassembled to C1∥C3∥C2 — and only
falls back to the native reading when that attempt fails: whenever the first attempt
succeeds, its value is the result (first conjunct).  Consequently a well-formed
ciphertext laid out as C1∥C2∥C3 under the stored key pair (same `hcomm` identity as
in the round-trip) is accepted and decrypts to its original UTF-8 plaintext without
modification (second conjunct). -/
theorem C3_c1c2c3_attempted_first (d : ℕ) (pub m ks ct : List ℕ)
    (henc : SM2.encryptC1C3C2 pub m ks = .ok ct)
    (hcomm : ∀ (k : ℕ) (x1 y1 x2 y2 : ℤ), k ∈ ks →
      SM2.pointMul k SM2.basePoint = .ok (.fin x1 y1) →
      (SM2.parsePubKey pub).bind (SM2.pointMul k) = .ok (.fin x2 y2) →
      SM2.pointMul d (.fin x1 y1) = .ok (.fin x2 y2))
    (hutf8 : SM2.utf8Valid m = true) :
    (∀ bs plain, 97 ≤ bs.length → bs.getD 0 0 = 4 →
      SM2.decryptC1C3C2 d (bs.take 65 ++ bs.drop (bs.length - 32)
        ++ (bs.drop 65).take (bs.length - 32 - 65)) = .ok plain →
      SM2.utf8Valid plain = true →
      SM2.decryptDetect d bs = .ok plain) ∧
    SM2.decryptDetect d (ct.take 65 ++ ct.drop 97 ++ (ct.drop 65).take 32) = .ok m := by
  constructor
  · intro bs plain h1 h2 hdecA hu
    unfold SM2.decryptDetect
    dsimp only []
    rw [if_pos (⟨h1, h2⟩ : 97 ≤ bs.length ∧ bs.getD 0 0 = 4)]
    rw [hdecA, SM2.okBind]
    rw [if_pos hu]
  · obtain ⟨hdec, c1, c3, c2, hsplit, l1, l3, l2, hhead⟩ :=
      SM2.decrypt_roundtrip_core d pub m ks ct henc hcomm
    have htake65 : ct.take 65 = c1 := by rw [hsplit, List.take_left' l1]
    have hdrop65 : ct.drop 65 = c3 ++ c2 := by rw [hsplit, List.drop_left' l1]
    have hdrop97 : ct.drop 97 = c2 := by
      rw [hsplit, ← List.append_assoc,
        List.drop_left' (by rw [List.length_append, l1, l3])]
    have htakec3 : (ct.drop 65).take 32 = c3 := by rw [hdrop65, List.take_left' l3]
    rw [htake65, hdrop97, htakec3]
    set ct' := c1 ++ c2 ++ c3 with hct'
    have hct'assoc : ct' = (c1 ++ c2) ++ c3 := by rw [hct', List.append_assoc]
    have lct' : ct'.length = 97 + c2.length := by
      rw [hct']
      simp [l1, l3]
      omega
    have hhead' : ct'.getD 0 0 = 4 := by
      rw [hct', List.append_assoc, List.getD_append _ _ _ _ (by omega)]
      exact hhead
    unfold SM2.decryptDetect
    dsimp only []
    rw [if_pos (⟨by omega, hhead'⟩ : 97 ≤ ct'.length ∧ ct'.getD 0 0 = 4)]
    have ht65 : ct'.take 65 = c1 := by
      rw [hct', List.append_assoc, List.take_left' l1]
    have hd32 : ct'.drop (ct'.length - 32) = c3 := by
      rw [hct'assoc, List.drop_left' (by rw [List.length_append, l1, lct']; omega)]
    have ht2 : (ct'.drop 65).take (ct'.length - 32 - 65) = c2 := by
      have : ct'.drop 65 = c2 ++ c3 := by
        rw [hct', List.append_assoc, List.drop_left' l1]
      rw [this, List.take_left' (by omega)]
    rw [ht65, hd32, ht2]
    rw [show c1 ++ c3 ++ c2 = ct from by rw [hsplit, List.append_assoc]]
    rw [hdec, SM2.okBind]
    rw [if_pos hutf8]

theorem C3_witness :
    SM2.decryptDetect 1 (SM2.Inputs.ct98.take 65 ++ SM2.Inputs.ct98.drop 97
      ++ (SM2.Inputs.ct98.drop 65).take 32) = .ok [97] := by
  have henc : SM2.encryptC1C3C2 SM2.Inputs.gBytes [97] [1] = .ok SM2.Inputs.ct98 := by decide
  have h := C3_c1c2c3_attempted_first 1 SM2.Inputs.gBytes [97] [1] SM2.Inputs.ct98 henc ?_
    (by decide)
  · exact h.2
  · intro k x1 y1 x2 y2 hk h1 h2
    rcases List.mem_singleton.mp hk with rfl
    have hb : SM2.Pt.fin SM2.gx SM2.gy = .fin x1 y1 := by
      have h1' : (Except.ok SM2.basePoint : Except SM2.Err SM2.Pt) = .ok (.fin x1 y1) := by
        rw [← h1]; rfl
      exact Except.ok.inj h1'
    have hpk : SM2.parsePubKey SM2.Inputs.gBytes = .ok (.fin SM2.gx SM2.gy) := by decide
    rw [hpk] at h2
    have h2' : (Except.ok (SM2.Pt.fin SM2.gx SM2.gy) : Except SM2.Err SM2.Pt)
        = .ok (.fin x2 y2) := by
      rw [← h2]; rfl
    have hb2 := Except.ok.inj h2'
    injection hb with e1 e2
    injection hb2 with e3 e4
    subst e1; subst e2; subst e3; subst e4
    rfl

namespace SM2

theorem errBind {ε α β : Type} (e : ε) (f : α → Except ε β) :
    (Except.error e >>= f : Except ε β) = .error e := rfl

end SM2

/-- C7, refuted on the code: the modular-inverse failure *is* reachable from user
input.  This 97-byte ciphertext passes both structural checks of `_decrypt_c1c3c2`
(length ≥ 97 and leading byte `0x04`), yet decryption with the private key 2 raises
the mod-inverse error: its C1 segment decodes to the point `(1, 0)` and the first
point doubling calls `_mod_inverse(2·0, p)` with `gcd(0, p) = p ≠ 1`. -/
theorem C7_counterexample :
    97 ≤ SM2.Inputs.ctY0.length ∧ SM2.Inputs.ctY0.getD 0 0 = 4 ∧
    SM2.decryptC1C3C2 2 SM2.Inputs.ctY0 = .error .modInv := by
  refine ⟨by decide, by decide, by decide⟩

/-- C7 as amended: for every 32-byte C3 field, the structurally-accepted ciphertext
whose C1 segment encodes the point `(1, 0)` (y-coordinate zero) drives
`_mod_inverse` to an argument not coprime to `p` during the point arithmetic of
decryption, so the failure is reachable from ciphertext input alone and does not
indicate a domain-parameter or programming error. -/
theorem C7_mod_inverse_reachable_from_input (tail : List ℕ) (htail : tail.length = 32) :
    SM2.decryptC1C3C2 2 (SM2.Inputs.c1y0 ++ tail) = .error .modInv := by
  have hlen : (SM2.Inputs.c1y0 ++ tail).length = 97 := by
    rw [List.length_append, htail]
    decide
  have hp : SM2.parseC1 (SM2.Inputs.c1y0 ++ tail) = .ok (.fin 1 0) := by
    have h := SM2.parseC1_wellformed (List.replicate 31 0 ++ [1]) (List.replicate 32 0) tail
      (by decide) (by decide)
    rw [show SM3.bytesToNat (List.replicate 31 0 ++ [1]) = 1 from by decide,
      show SM3.bytesToNat (List.replicate 32 0) = 0 from by decide] at h
    exact h
  unfold SM2.decryptC1C3C2
  rw [if_neg (by omega)]
  rw [hp, SM2.okBind]
  rw [show SM2.pointMul 2 (.fin 1 0) = .error .modInv from by decide]
  rfl

theorem C7_reachability_witness :
    SM2.decryptC1C3C2 2 (SM2.Inputs.c1y0 ++ List.replicate 32 7) = .error .modInv :=
  C7_mod_inverse_reachable_from_input (List.replicate 32 7) (by decide)

/-- C5, refuted on the code (the code contradicts the spec's 96-byte requirement and
its own prefix-reinsertion heuristic): a valid 97-byte ciphertext decrypts fine when
supplied as its full 194-character hex string (base64 rejects it, the hex path takes
over), but the same ciphertext with its leading `0x04` byte stripped — 96 bytes,
192 hex characters — is *spuriously consumed by the base64 decoder* (every hex digit
is in the base64 alphabet and 192 ≡ 0 mod 4), yielding 144 garbage bytes whose first
byte is not `0x04`, so decryption raises instead of succeeding; the hex path with the
`len == 96` prefix-reinsertion branch is never reached.  The 99-byte stripped form
(odd byte count, 198 ≡ 2 mod 4 hex characters) does make base64 fail and succeeds as
the claim describes. -/
theorem C5_stripped_hex_decoding :
    SM2.decryptC1C3C2 1 SM2.Inputs.ct97 = .ok [] ∧
    SM2.decryptFull 1 (SM2.toHexChars SM2.Inputs.ct97) = .ok [] ∧
    Except.map List.length (SM2.decodeCipher (SM2.toHexChars (SM2.Inputs.ct97.drop 1)))
      = .ok 144 ∧
    SM2.decryptFull 1 (SM2.toHexChars (SM2.Inputs.ct97.drop 1)) = .error .invalidC1 ∧
    SM2.decryptFull 1 (SM2.toHexChars (SM2.Inputs.ct100.drop 1)) = .ok [97, 98, 99] := by
  refine ⟨by decide, ?_, by decide, ?_, ?_⟩
  · have hdecode : SM2.decodeCipher (SM2.toHexChars SM2.Inputs.ct97)
        = .ok SM2.Inputs.ct97 := by decide
    have hdetect : SM2.decryptDetect 1 SM2.Inputs.ct97 = .ok [] := by decide
    unfold SM2.decryptFull
    rw [hdecode, SM2.okBind, hdetect]
  · have hdecode : Except.map List.length
        (SM2.decodeCipher (SM2.toHexChars (SM2.Inputs.ct97.drop 1))) = .ok 144 := by decide
    cases hg : SM2.decodeCipher (SM2.toHexChars (SM2.Inputs.ct97.drop 1)) with
    | error e => rw [hg] at hdecode; exact absurd hdecode (by simp [Except.map])
    | ok garbage =>
        have hhead : garbage.getD 0 0 = 223 := by
          have : SM2.decodeCipher (SM2.toHexChars (SM2.Inputs.ct97.drop 1))
              = .ok (SM2.b64Quads ((SM2.toHexChars (SM2.Inputs.ct97.drop 1)).filterMap
                SM2.b64Val)) := by decide
          rw [this] at hg
          rw [← Except.ok.inj hg]
          decide
        have hlen : garbage.length = 144 := by
          rw [hg] at hdecode
          simpa [Except.map] using hdecode
        have hfb : SM2.decryptC1C3C2 1 garbage = .error .invalidC1 := by
          unfold SM2.decryptC1C3C2
          rw [if_neg (by omega)]
          rw [show SM2.parseC1 garbage = .error .invalidC1 from by
            unfold SM2.parseC1
            rw [if_pos (by rw [hhead]; decide)]]
          rfl
        have hdetect : SM2.decryptDetect 1 garbage = .error .invalidC1 := by
          unfold SM2.decryptDetect
          dsimp only []
          rw [if_neg (by rw [hhead]; simp)]
          rw [hfb]
          rfl
        unfold SM2.decryptFull
        rw [hg, SM2.okBind, hdetect]
  · have hdecode : SM2.decodeCipher (SM2.toHexChars (SM2.Inputs.ct100.drop 1))
        = .ok SM2.Inputs.ct100 := by decide
    have hA : SM2.decryptC1C3C2 1 (SM2.Inputs.ct100.take 65
        ++ SM2.Inputs.ct100.drop (SM2.Inputs.ct100.length - 32)
        ++ (SM2.Inputs.ct100.drop 65).take (SM2.Inputs.ct100.length - 32 - 65))
        = .error .tampered := by decide
    have hB : SM2.decryptC1C3C2 1 SM2.Inputs.ct100 = .ok [97, 98, 99] := by decide
    have hdetect : SM2.decryptDetect 1 SM2.Inputs.ct100 = .ok [97, 98, 99] := by
      unfold SM2.decryptDetect
      dsimp only []
      rw [if_pos (by decide : 97 ≤ SM2.Inputs.ct100.length ∧ SM2.Inputs.ct100.getD 0 0 = 4)]
      rw [hA, SM2.errBind]
      rw [hB, SM2.okBind]
      rw [if_pos (by decide : SM2.utf8Valid [97, 98, 99] = true)]
    unfold SM2.decryptFull
    rw [hdecode, SM2.okBind, hdetect]

namespace SM2

/-- Chord-case closure of the Weierstrass equation, over an arbitrary commutative
ring: if two points satisfy the curve equation, the slope denominator `x2 - x1` has
an inverse `v`, and `(L, x3, y3)` are formed by the textbook chord formulas (as in
`_point_add`), then the result satisfies the curve equation too. -/
theorem chord_closure {R : Type} [CommRing R] (x1 y1 x2 y2 aa bb v L x3 y3 : R)
    (e1 : y1 ^ 2 = x1 ^ 3 + aa * x1 + bb)
    (e2 : y2 ^ 2 = x2 ^ 3 + aa * x2 + bb)
    (hv : (x2 - x1) * v = 1)
    (hLdef : L = (y2 - y1) * v)
    (hx3 : x3 = L ^ 2 - x1 - x2)
    (hy3 : y3 = L * (x1 - x3) - y1) :
    y3 ^ 2 = x3 ^ 3 + aa * x3 + bb := by
  have hL : (x2 - x1) * L = y2 - y1 := by
    rw [hLdef]
    calc (x2 - x1) * ((y2 - y1) * v) = (y2 - y1) * ((x2 - x1) * v) := by ring
      _ = y2 - y1 := by rw [hv, mul_one]
  have hx3' : (x2 - x1) ^ 2 * x3 = (y2 - y1) ^ 2 - (x1 + x2) * (x2 - x1) ^ 2 := by
    rw [hx3]
    linear_combination ((x2 - x1) * L + (y2 - y1)) * hL
  have h3 : (x2 - x1) ^ 3 * y3 =
      (y2 - y1) * ((x2 - x1) ^ 2 * x1 - (y2 - y1) ^ 2 + (x1 + x2) * (x2 - x1) ^ 2)
        - (x2 - x1) ^ 3 * y1 := by
    rw [hy3, hx3]
    linear_combination ((x2 - x1) ^ 2 * x1 + (x1 + x2) * (x2 - x1) ^ 2
      - (((x2 - x1) * L) ^ 2 + (x2 - x1) * L * (y2 - y1) + (y2 - y1) ^ 2)) * hL
  have key : ((y2 - y1) * ((x2 - x1) ^ 2 * x1 - (y2 - y1) ^ 2 + (x1 + x2) * (x2 - x1) ^ 2)
        - (x2 - x1) ^ 3 * y1) ^ 2 =
      ((y2 - y1) ^ 2 - (x1 + x2) * (x2 - x1) ^ 2) ^ 3
        + aa * (x2 - x1) ^ 4 * ((y2 - y1) ^ 2 - (x1 + x2) * (x2 - x1) ^ 2)
        + bb * (x2 - x1) ^ 6 := by
    linear_combination
      (-x1^6 + 3*x1^5*x2 + x1^3*y1^2 - 2*x1^3*y1*y2 - 9*x1^3*x2^3 + x1^3*x2*aa
        + x1^3*bb - 3*x1^2*y1^2*x2 + 6*x1^2*y1*x2*y2 + 12*x1^2*x2^4 - 3*x1^2*x2^2*aa
        - 3*x1^2*x2*bb + 3*x1*y1^2*x2^2 - 6*x1*y1*x2^2*y2 - 6*x1*x2^5 + 3*x1*x2^3*aa
        + 3*x1*x2^2*bb - y1^2*x2^3 + 2*y1*x2^3*y2 + x2^6 - x2^4*aa - x2^3*bb) * e1
      + (x1^6 - 6*x1^5*x2 + 12*x1^4*x2^2 - x1^4*aa + 2*x1^3*y1*y2 - 9*x1^3*x2^3
        + 3*x1^3*x2*aa - x1^3*y2^2 - x1^3*bb - 6*x1^2*y1*x2*y2 - 3*x1^2*x2^2*aa
        + 3*x1^2*x2*y2^2 + 3*x1^2*x2*bb + 6*x1*y1*x2^2*y2 + 3*x1*x2^5 + x1*x2^3*aa
        - 3*x1*x2^2*y2^2 - 3*x1*x2^2*bb - 2*y1*x2^3*y2 - x2^6 + x2^3*y2^2
        + x2^3*bb) * e2
  have h1 : ((x2 - x1) * v) ^ 6 = 1 := by rw [hv, one_pow]
  calc y3 ^ 2 = ((x2 - x1) * v) ^ 6 * y3 ^ 2 := by rw [h1, one_mul]
    _ = v ^ 6 * ((x2 - x1) ^ 3 * y3) ^ 2 := by ring
    _ = v ^ 6 * (((x2 - x1) ^ 2 * x3) ^ 3
          + aa * (x2 - x1) ^ 4 * ((x2 - x1) ^ 2 * x3) + bb * (x2 - x1) ^ 6) := by
        rw [h3, key, ← hx3']
    _ = ((x2 - x1) * v) ^ 6 * (x3 ^ 3 + aa * x3 + bb) := by ring
    _ = x3 ^ 3 + aa * x3 + bb := by rw [h1, one_mul]

/-- Tangent-case closure of the Weierstrass equation (as in `_point_double`). -/
theorem tangent_closure {R : Type} [CommRing R] (x1 y1 aa bb v L x3 y3 : R)
    (e1 : y1 ^ 2 = x1 ^ 3 + aa * x1 + bb)
    (hv : (2 * y1) * v = 1)
    (hLdef : L = (3 * x1 * x1 + aa) * v)
    (hx3 : x3 = L ^ 2 - 2 * x1)
    (hy3 : y3 = L * (x1 - x3) - y1) :
    y3 ^ 2 = x3 ^ 3 + aa * x3 + bb := by
  have hL : (2 * y1) * L = 3 * x1 ^ 2 + aa := by
    rw [hLdef]
    calc (2 * y1) * ((3 * x1 * x1 + aa) * v) = (3 * x1 * x1 + aa) * ((2 * y1) * v) := by
          ring
      _ = 3 * x1 ^ 2 + aa := by rw [hv, mul_one]; ring
  have hx3' : (2 * y1) ^ 2 * x3 = (3 * x1 ^ 2 + aa) ^ 2 - 2 * x1 * (2 * y1) ^ 2 := by
    rw [hx3]
    linear_combination ((2 * y1) * L + (3 * x1 ^ 2 + aa)) * hL
  have h3 : (2 * y1) ^ 3 * y3 =
      (3 * x1 ^ 2 + aa) * ((2 * y1) ^ 2 * x1 - (3 * x1 ^ 2 + aa) ^ 2
        + 2 * x1 * (2 * y1) ^ 2) - (2 * y1) ^ 3 * y1 := by
    rw [hy3, hx3]
    linear_combination (3 * x1 * (2 * y1) ^ 2
      - (((2 * y1) * L) ^ 2 + (2 * y1) * L * (3 * x1 ^ 2 + aa)
        + (3 * x1 ^ 2 + aa) ^ 2)) * hL
  have key : ((3 * x1 ^ 2 + aa) * ((2 * y1) ^ 2 * x1 - (3 * x1 ^ 2 + aa) ^ 2
        + 2 * x1 * (2 * y1) ^ 2) - (2 * y1) ^ 3 * y1) ^ 2 =
      ((3 * x1 ^ 2 + aa) ^ 2 - 2 * x1 * (2 * y1) ^ 2) ^ 3
        + aa * (2 * y1) ^ 4 * ((3 * x1 ^ 2 + aa) ^ 2 - 2 * x1 * (2 * y1) ^ 2)
        + bb * (2 * y1) ^ 6 := by
    linear_combination (64 * y1 ^ 6) * e1
  have h1 : ((2 * y1) * v) ^ 6 = 1 := by rw [hv, one_pow]
  calc y3 ^ 2 = ((2 * y1) * v) ^ 6 * y3 ^ 2 := by rw [h1, one_mul]
    _ = v ^ 6 * ((2 * y1) ^ 3 * y3) ^ 2 := by ring
    _ = v ^ 6 * (((2 * y1) ^ 2 * x3) ^ 3
          + aa * (2 * y1) ^ 4 * ((2 * y1) ^ 2 * x3) + bb * (2 * y1) ^ 6) := by
        rw [h3, key, ← hx3']
    _ = ((2 * y1) * v) ^ 6 * (x3 ^ 3 + aa * x3 + bb) := by ring
    _ = x3 ^ 3 + aa * x3 + bb := by rw [h1, one_mul]

end SM2

namespace SM2

/-- `p` as a natural number, the modulus of the residue ring used in proofs. -/
def pn : ℕ := 0xFFFFFFFEFFFFFFFFFFFFFFFFFFFFFFFFFFFFFFFF00000000FFFFFFFFFFFFFFFF

theorem pn_cast : ((pn : ℕ) : ℤ) = p := by norm_num [pn, p]

theorem p_pos : (0 : ℤ) < p := by norm_num [p]

theorem emod_eq_iff_cast {u v : ℤ} :
    u % p = v % p ↔ ((u : ZMod pn) = (v : ZMod pn)) := by
  rw [ZMod.intCast_eq_intCast_iff', pn_cast]

theorem castmod (u : ℤ) : (((u % p : ℤ)) : ZMod pn) = (u : ZMod pn) :=
  emod_eq_iff_cast.mp (Int.emod_emod_of_dvd u dvd_rfl)

theorem xgcdF_bezout : ∀ (fuel : ℕ) (a0 b0 : ℤ), 0 ≤ a0 → a0 < (fuel : ℤ) →
    a0 * (xgcdF fuel a0 b0).2.1 + b0 * (xgcdF fuel a0 b0).2.2 = (xgcdF fuel a0 b0).1 := by
  intro fuel
  induction fuel with
  | zero =>
      intro a0 b0 h1 h2
      exfalso
      simp at h2
      omega
  | succ n ih =>
      intro a0 b0 h1 h2
      unfold xgcdF
      by_cases ha : a0 = 0
      · rw [if_pos ha]
        simp [ha]
      · rw [if_neg ha]
        dsimp only []
        have h3 : 0 ≤ b0 % a0 := Int.emod_nonneg b0 ha
        have h4 : b0 % a0 < a0 := Int.emod_lt_of_pos b0 (lt_of_le_of_ne h1 (Ne.symm ha))
        have hfuel : b0 % a0 < (n : ℤ) := by
          push_cast at h2
          omega
        have hrec := ih (b0 % a0) a0 h3 hfuel
        have hmod : b0 % a0 = b0 - a0 * (b0 / a0) := Int.emod_def b0 a0
        linear_combination hrec - (xgcdF n (b0 % a0) a0).2.1 * hmod

theorem modInverse_spec {a0 m v : ℤ} (hm : 0 < m) (h : modInverse a0 m = .ok v) :
    (a0 * v) % m = 1 % m := by
  unfold modInverse at h
  dsimp only [] at h
  by_cases hg : (xgcdF ((if a0 < 0 then (a0 % m + m) % m else a0).toNat + 1)
      (if a0 < 0 then (a0 % m + m) % m else a0) m).1 ≠ 1
  · rw [if_pos hg] at h
    exact absurd h (by simp)
  · rw [if_neg hg] at h
    replace h := Except.ok.inj h
    push_neg at hg
    set a1 := if a0 < 0 then (a0 % m + m) % m else a0 with ha1
    have h1 : 0 ≤ a1 := by
      rw [ha1]
      split
      · exact Int.emod_nonneg _ (ne_of_gt hm)
      · omega
    have h2 : a1 < ((a1.toNat + 1 : ℕ) : ℤ) := by
      push_cast
      omega
    have hbez := xgcdF_bezout (a1.toNat + 1) a1 m h1 h2
    rw [hg] at hbez
    set X := (xgcdF (a1.toNat + 1) a1 m).2.1 with hX
    set Y := (xgcdF (a1.toNat + 1) a1 m).2.2 with hY
    have hva : v % m = X % m := by
      rw [← h]
      rw [Int.emod_emod_of_dvd _ dvd_rfl]
      rw [show X % m + m = X % m + m * 1 from by ring, Int.add_mul_emod_self_left]
      exact Int.emod_emod_of_dvd _ dvd_rfl
    have haa : a1 % m = a0 % m := by
      rw [ha1]
      split
      · rw [Int.emod_emod_of_dvd _ dvd_rfl]
        rw [show a0 % m + m = a0 % m + m * 1 from by ring, Int.add_mul_emod_self_left]
        exact Int.emod_emod_of_dvd _ dvd_rfl
      · rfl
    calc (a0 * v) % m = ((a0 % m) * (v % m)) % m := by rw [Int.mul_emod]
      _ = ((a1 % m) * (X % m)) % m := by rw [hva, haa]
      _ = (a1 * X) % m := by rw [← Int.mul_emod]
      _ = 1 % m := by
          rw [show a1 * X = 1 + m * (-Y) from by linarith [hbez],
            Int.add_mul_emod_self_left]

end SM2

namespace SM2

theorem pointDouble_onCurve {pt q : Pt} (h : onCurve pt) (hd : pointDouble pt = .ok q) :
    onCurve q := by
  cases pt with
  | inf =>
      rw [← Except.ok.inj hd]
      trivial
  | fin x y =>
      unfold pointDouble at hd
      obtain ⟨inv, hinv, hd⟩ := bindOkDo hd
      dsimp only [] at hd
      replace hd := Except.ok.inj hd
      subst hd
      have e1c : ((y : ZMod pn))^2 = ((x : ZMod pn))^3 + (a : ZMod pn) * (x : ZMod pn)
          + (b : ZMod pn) := by
        have := emod_eq_iff_cast.mp (h : y ^ 2 % p = (x ^ 3 + a * x + b) % p)
        push_cast at this
        exact this
      have hvc : 2 * ((y : ZMod pn)) * ((inv : ZMod pn)) = 1 := by
        have := emod_eq_iff_cast.mp (modInverse_spec p_pos hinv)
        push_cast at this
        exact this
      show _ % p = _ % p
      rw [emod_eq_iff_cast]
      push_cast [castmod]
      have main := tangent_closure ((x : ZMod pn)) ((y : ZMod pn)) ((a : ZMod pn))
        ((b : ZMod pn)) ((inv : ZMod pn))
        ((3 * (x : ZMod pn) * (x : ZMod pn) + (a : ZMod pn)) * (inv : ZMod pn))
        (((3 * (x : ZMod pn) * (x : ZMod pn) + (a : ZMod pn)) * (inv : ZMod pn)) ^ 2
          - 2 * (x : ZMod pn))
        (((3 * (x : ZMod pn) * (x : ZMod pn) + (a : ZMod pn)) * (inv : ZMod pn))
          * ((x : ZMod pn) - (((3 * (x : ZMod pn) * (x : ZMod pn) + (a : ZMod pn))
            * (inv : ZMod pn)) ^ 2 - 2 * (x : ZMod pn))) - (y : ZMod pn))
        e1c (by linear_combination hvc) rfl rfl rfl
      linear_combination main

theorem pointAdd_onCurve {p1 p2 q : Pt} (h1 : onCurve p1) (h2 : onCurve p2)
    (hadd : pointAdd p1 p2 = .ok q) : onCurve q := by
  cases p1 with
  | inf =>
      cases p2 with
      | inf => rw [← Except.ok.inj hadd]; trivial
      | fin x2 y2 => rw [← Except.ok.inj hadd]; exact h2
  | fin x1 y1 =>
      cases p2 with
      | inf => rw [← Except.ok.inj hadd]; exact h1
      | fin x2 y2 =>
          replace hadd : (if x1 = x2 then
              if y1 = y2 then pointDouble (.fin x1 y1) else Except.ok Pt.inf
            else do
              let inv ← modInverse (x2 - x1) p
              let lam : ℤ := (y2 - y1) * inv % p
              let x3 : ℤ := (lam * lam - x1 - x2) % p
              let y3 : ℤ := (lam * (x1 - x3) - y1) % p
              Except.ok (Pt.fin x3 y3)) = Except.ok q := hadd
          by_cases hx : x1 = x2
          · rw [if_pos hx] at hadd
            by_cases hy : y1 = y2
            · rw [if_pos hy] at hadd
              exact pointDouble_onCurve h1 hadd
            · rw [if_neg hy] at hadd
              rw [← Except.ok.inj hadd]
              trivial
          · rw [if_neg hx] at hadd
            obtain ⟨inv, hinv, hadd⟩ := bindOkDo hadd
            dsimp only [] at hadd
            replace hadd := Except.ok.inj hadd
            subst hadd
            have e1c : ((y1 : ZMod pn))^2 = ((x1 : ZMod pn))^3
                + (a : ZMod pn) * (x1 : ZMod pn) + (b : ZMod pn) := by
              have := emod_eq_iff_cast.mp (h1 : y1 ^ 2 % p = (x1 ^ 3 + a * x1 + b) % p)
              push_cast at this
              exact this
            have e2c : ((y2 : ZMod pn))^2 = ((x2 : ZMod pn))^3
                + (a : ZMod pn) * (x2 : ZMod pn) + (b : ZMod pn) := by
              have := emod_eq_iff_cast.mp (h2 : y2 ^ 2 % p = (x2 ^ 3 + a * x2 + b) % p)
              push_cast at this
              exact this
            have hvc : (((x2 : ZMod pn)) - ((x1 : ZMod pn))) * ((inv : ZMod pn)) = 1 := by
              have := emod_eq_iff_cast.mp (modInverse_spec p_pos hinv)
              push_cast at this
              linear_combination this
            show _ % p = _ % p
            rw [emod_eq_iff_cast]
            push_cast [castmod]
            have main := chord_closure ((x1 : ZMod pn)) ((y1 : ZMod pn)) ((x2 : ZMod pn))
              ((y2 : ZMod pn)) ((a : ZMod pn)) ((b : ZMod pn)) ((inv : ZMod pn))
              (((y2 : ZMod pn) - (y1 : ZMod pn)) * (inv : ZMod pn))
              ((((y2 : ZMod pn) - (y1 : ZMod pn)) * (inv : ZMod pn)) ^ 2
                - (x1 : ZMod pn) - (x2 : ZMod pn))
              ((((y2 : ZMod pn) - (y1 : ZMod pn)) * (inv : ZMod pn))
                * ((x1 : ZMod pn) - ((((y2 : ZMod pn) - (y1 : ZMod pn)) * (inv : ZMod pn)) ^ 2
                  - (x1 : ZMod pn) - (x2 : ZMod pn))) - (y1 : ZMod pn))
              e1c e2c hvc rfl rfl rfl
            linear_combination main

theorem mulLoop_onCurve : ∀ (fuel k : ℕ) (result addend q : Pt),
    onCurve result → onCurve addend → mulLoop fuel k result addend = .ok q → onCurve q := by
  intro fuel
  induction fuel with
  | zero =>
      intro k r ad q hr _ h
      exact (Except.ok.inj h) ▸ hr
  | succ n ih =>
      intro k r ad q hr ha h
      unfold mulLoop at h
      by_cases hk : k = 0
      · rw [if_pos hk] at h
        exact (Except.ok.inj h) ▸ hr
      · rw [if_neg hk] at h
        dsimp only [] at h
        by_cases hb : k % 2 = 1
        · rw [if_pos hb] at h
          obtain ⟨r', hr', h⟩ := bindOkDo h
          obtain ⟨ad', had', h⟩ := bindOkDo h
          exact ih (k / 2) r' ad' q (pointAdd_onCurve hr ha hr')
            (pointDouble_onCurve ha had') h
        · rw [if_neg hb] at h
          obtain ⟨r', hr', h⟩ := bindOkDo h
          obtain ⟨ad', had', h⟩ := bindOkDo h
          exact ih (k / 2) r' ad' q ((Except.ok.inj hr') ▸ hr)
            (pointDouble_onCurve ha had') h

theorem pointMul_onCurve {k : ℕ} {pt q : Pt} (h : onCurve pt)
    (hm : pointMul k pt = .ok q) : onCurve q := by
  unfold pointMul at hm
  by_cases h0 : k = 0
  · rw [if_pos h0] at hm
    rw [← Except.ok.inj hm]
    trivial
  · rw [if_neg h0] at hm
    by_cases h1 : k = 1
    · rw [if_pos h1] at hm
      exact (Except.ok.inj hm) ▸ h
    · rw [if_neg h1] at hm
      exact mulLoop_onCurve (k + 1) k .inf pt q trivial h hm

end SM2

/-- C6, refuted as stated: the C1 segment of a ciphertext is parsed inside
`_decrypt_c1c3c2` with no curve-membership validation, so a structurally accepted
ciphertext yields a constructed `SM2Point` that violates the curve equation — here
the point `(0, 1)`, for which `1² mod p ≠ 0³ + a·0 + b mod p`. -/
theorem C6_counterexample :
    97 ≤ SM2.Inputs.ct01.length ∧ SM2.Inputs.ct01.getD 0 0 = 4 ∧
    SM2.parseC1 SM2.Inputs.ct01 = .ok (.fin 0 1) ∧ ¬ SM2.onCurve (.fin 0 1) := by
  refine ⟨by decide, by decide, by decide, by decide⟩

/-- C6 as amended: every non-infinity point the core *computes* — point addition,
doubling, or scalar multiplication on on-curve inputs, and public-key derivation —
satisfies the curve equation `y² ≡ x³ + a·x + b (mod p)`; points merely *parsed*
from the C1 bytes of a ciphertext are not validated and may be off the curve. -/
theorem C6_computed_points_on_curve :
    (∀ p1 p2 q : SM2.Pt, SM2.onCurve p1 → SM2.onCurve p2 →
      SM2.pointAdd p1 p2 = .ok q → SM2.onCurve q) ∧
    (∀ p1 q : SM2.Pt, SM2.onCurve p1 → SM2.pointDouble p1 = .ok q → SM2.onCurve q) ∧
    (∀ (k : ℕ) (pt q : SM2.Pt), SM2.onCurve pt → SM2.pointMul k pt = .ok q →
      SM2.onCurve q) ∧
    (∀ (d : ℕ) (q : SM2.Pt), SM2.computePublicKey d = .ok q → SM2.onCurve q) :=
  ⟨fun _ _ _ h1 h2 h => SM2.pointAdd_onCurve h1 h2 h,
   fun _ _ h1 h => SM2.pointDouble_onCurve h1 h,
   fun _ _ _ h1 h => SM2.pointMul_onCurve h1 h,
   fun _ _ h => SM2.pointMul_onCurve (by decide : SM2.onCurve SM2.basePoint) h⟩

theorem C6_on_curve_witness :
    SM2.onCurve (SM2.Pt.fin
      0x56CEFD60D7C87C000D58EF57FA73BA4D9C0DFA08C08A7331495C2E1DA3F2BD52
      0x31B7E7E6CC8189F668535CE0F8EAF1BD6DE84C182F6C8E716F780D3A970A23C3) :=
  C6_computed_points_on_curve.2.1 SM2.basePoint _ (by decide) (by decide)
